import Mathlib

/-!
Verification of the Document Roll-Forward Engine of `app.py`
(mochimomoki/tpa-demo).

The development shallowly embeds the pure core of the engine:

* `replace_text_in_docx` (app.py lines 317-345): run-wise placeholder
  replacement over paragraphs and table-cell paragraphs,
* the fiscal-year detector `YEAR_RE` (line 221) and the roll-forward
  routine `bump_years` (lines 594-607),
* the section appenders `add_heading` / `add_paragraph` (lines 348-366),
* `fetch_and_clean` (lines 394-411) and `summarise_text_blocks`
  (lines 414-418),
* the Industry-Analysis append block of the TPD generator
  (lines 689-704).

Strings are embedded as `List Char`.  Python's `str.replace`,
`str.strip`, `str.splitlines` and the regular expressions are
transcribed below; `\d` and `\s` are modelled by their ASCII meaning
(`Char.isDigit` and the explicit whitespace set `pyIsSpace`), and
`str.splitlines` splits on the newline character, which is the only
line terminator relevant to the engine.
-/

namespace TPA

/-- Python's substring test `n in h`. -/
def isSubstr (n : List Char) : List Char → Bool
  | [] => n.isPrefixOf []
  | c :: t => n.isPrefixOf (c :: t) || isSubstr n t

/-- Fuelled recursion of Python's `str.replace` for a (possibly empty,
but then inert) pattern `k`: scan left to right, replacing leftmost
non-overlapping occurrences of `k` by `v`.  The fuel argument only makes
the recursion structural; `pyReplaceAux` instantiates it with the length
of the string, which `pyReplaceFuel_irrel` shows is enough. -/
def pyReplaceFuel (k v : List Char) : Nat → List Char → List Char
  | 0, s => s
  | _ + 1, [] => []
  | n + 1, c :: s =>
    if k ≠ [] ∧ k.isPrefixOf (c :: s) then
      v ++ pyReplaceFuel k v n ((c :: s).drop k.length)
    else
      c :: pyReplaceFuel k v n s

/-- Left-to-right non-overlapping replacement of `k` by `v`. -/
def pyReplaceAux (k v s : List Char) : List Char :=
  pyReplaceFuel k v s.length s

theorem pyReplaceFuel_irrel (k v : List Char) :
    ∀ n m s, s.length ≤ n → s.length ≤ m →
      pyReplaceFuel k v n s = pyReplaceFuel k v m s := by
  intro n
  induction n with
  | zero =>
    intro m s hn _
    have : s = [] := List.eq_nil_of_length_eq_zero (Nat.le_zero.mp hn)
    subst this
    cases m <;> rfl
  | succ n ih =>
    intro m s hn hm
    cases s with
    | nil => cases m <;> rfl
    | cons c s =>
      cases m with
      | zero => simp at hm
      | succ m =>
        simp only [pyReplaceFuel]
        by_cases h : k ≠ [] ∧ k.isPrefixOf (c :: s)
        · rw [if_pos h, if_pos h]
          have hk : 0 < k.length := List.length_pos.mpr h.1
          have hlen : ((c :: s).drop k.length).length ≤ n := by
            simp only [List.length_drop, List.length_cons]
            simp only [List.length_cons] at hn
            omega
          have hlen' : ((c :: s).drop k.length).length ≤ m := by
            simp only [List.length_drop, List.length_cons]
            simp only [List.length_cons] at hm
            omega
          rw [ih m _ hlen hlen']
        · rw [if_neg h, if_neg h]
          have hs : s.length ≤ n := by
            simp only [List.length_cons] at hn; omega
          have hs' : s.length ≤ m := by
            simp only [List.length_cons] at hm; omega
          rw [ih m s hs hs']

/-- The defining equations of `pyReplaceAux`, independent of fuel. -/
theorem pyReplaceAux_nil (k v : List Char) : pyReplaceAux k v [] = [] := rfl

theorem pyReplaceAux_cons (k v : List Char) (c : Char) (s : List Char) :
    pyReplaceAux k v (c :: s) =
      if k ≠ [] ∧ k.isPrefixOf (c :: s) then
        v ++ pyReplaceAux k v ((c :: s).drop k.length)
      else
        c :: pyReplaceAux k v s := by
  show pyReplaceFuel k v (s.length + 1) (c :: s) = _
  simp only [pyReplaceFuel]
  by_cases h : k ≠ [] ∧ k.isPrefixOf (c :: s)
  · rw [if_pos h, if_pos h]
    have hk : 0 < k.length := List.length_pos.mpr h.1
    rw [pyReplaceFuel_irrel k v s.length ((c :: s).drop k.length).length _
      (by simp only [List.length_drop, List.length_cons]; omega) (Nat.le_refl _)]
    rfl
  · rw [if_neg h, if_neg h]
    rfl

/-- Python's `s.replace(k, v)`.  For an empty pattern Python interleaves
`v` between all characters (`"ab".replace("", "X") = "XaXbX"`). -/
def pyReplace (s k v : List Char) : List Char :=
  if k = [] then v ++ s.flatMap (fun c => c :: v)
  else pyReplaceAux k v s

/-- A run of a DOCX paragraph: its text together with its formatting
(character style, font, colour, ...), abstracted as a tag that
`python-docx` carries on the run object and that the engine never
rewrites. -/
structure Run where
  text : List Char
  fmt : Nat
deriving DecidableEq

/-- The concatenated run text of a paragraph — `python-docx`'s `p.text`
and the `whole = "".join(run.text for run in inline)` of
`replace_text_in_docx`. -/
def paraText (p : List Run) : List Char := (p.map Run.text).flatten

/-- One `if k in p.text:` body of `replace_text_in_docx` (app.py lines
326-333 / 340-345): when the key occurs in the concatenated text, the
whole replaced text is written into the first run and every other run
is emptied. -/
def replaceRun (p : List Run) (k v : List Char) : List Run :=
  if isSubstr k (paraText p) then
    match p with
    | [] => []
    | r :: rs =>
      { r with text := pyReplace (paraText (r :: rs)) k v } ::
        rs.map (fun q => { q with text := [] })
  else p

/-- The `for k, v in mapping.items():` loop of `replace_text_in_docx`
applied to one paragraph; the mapping is a list of key/value pairs in
Python's (insertion-ordered) dict order. -/
def replacePara (m : List (List Char × List Char)) (p : List Run) : List Run :=
  m.foldl (fun q kv => replaceRun q kv.1 kv.2) p

/-- A DOCX document as the engine sees it: body paragraphs plus tables
(a table is a list of rows, a row a list of cells, a cell a list of
paragraphs). -/
structure Document where
  paragraphs : List (List Run)
  tables : List (List (List (List (List Run))))
deriving DecidableEq

/-- `replace_text_in_docx(doc, mapping)` (app.py lines 317-345): the
run-wise replacement applied to every body paragraph and to every
paragraph of every table cell. -/
def replace_text_in_docx (m : List (List Char × List Char)) (d : Document) :
    Document where
  paragraphs := d.paragraphs.map (replacePara m)
  tables := d.tables.map (List.map (List.map (List.map (replacePara m))))

/-- All paragraphs of a document, body first, then table-cell
paragraphs. -/
def allParas (d : Document) : List (List Run) :=
  d.paragraphs ++
    d.tables.flatMap (fun t => t.flatMap (fun row => row.flatMap (fun cell => cell)))

/-- The text-level effect of one mapping entry: Python's
`whole.replace(k, v)` guarded by `k in p.text`. -/
def textStep (t : List Char) (kv : List Char × List Char) : List Char :=
  if isSubstr kv.1 t then pyReplace t kv.1 kv.2 else t

theorem isSubstr_nil_iff (k : List Char) : isSubstr k [] = true ↔ k = [] := by
  cases k <;> simp [isSubstr, List.isPrefixOf]

theorem paraText_nil : paraText [] = [] := rfl

theorem paraText_cons (r : Run) (rs : List Run) :
    paraText (r :: rs) = r.text ++ paraText rs := by
  simp [paraText]

theorem paraText_cleared (rs : List Run) :
    paraText (rs.map (fun q => { q with text := [] })) = [] := by
  induction rs with
  | nil => rfl
  | cons r rs ih => simpa [paraText_cons] using ih

/-- Text-level characterisation of one replacement step, for a nonempty
key. -/
theorem paraText_replaceRun (p : List Run) (k v : List Char) (hk : k ≠ []) :
    paraText (replaceRun p k v) = textStep (paraText p) (k, v) := by
  unfold replaceRun textStep
  by_cases h : isSubstr k (paraText p) = true
  · simp only [h, if_true]
    cases p with
    | nil =>
      exfalso
      exact hk ((isSubstr_nil_iff k).mp h)
    | cons r rs =>
      simp [paraText_cons, paraText_cleared, paraText]
  · simp [h]

/-- The whole mapping loop, at text level: the concatenated run text of
the rewritten paragraph is the sequential fold of the guarded
replacements over the old text. -/
theorem paraText_replacePara (m : List (List Char × List Char)) (p : List Run)
    (hm : ∀ kv ∈ m, kv.1 ≠ []) :
    paraText (replacePara m p) = m.foldl textStep (paraText p) := by
  induction m generalizing p with
  | nil => rfl
  | cons kv m ih =>
    have hk : kv.1 ≠ [] := hm kv (by simp)
    have hm' : ∀ kv' ∈ m, kv'.1 ≠ [] := fun kv' h => hm kv' (by simp [h])
    calc paraText (replacePara (kv :: m) p)
        = paraText (replacePara m (replaceRun p kv.1 kv.2)) := rfl
      _ = m.foldl textStep (paraText (replaceRun p kv.1 kv.2)) :=
          ih (replaceRun p kv.1 kv.2) hm'
      _ = m.foldl textStep (textStep (paraText p) (kv.1, kv.2)) := by
          rw [paraText_replaceRun p kv.1 kv.2 hk]
      _ = (kv :: m).foldl textStep (paraText p) := rfl

/-- A paragraph in which no mapping key occurs is returned verbatim. -/
theorem replacePara_id (m : List (List Char × List Char)) (p : List Run)
    (h : ∀ kv ∈ m, isSubstr kv.1 (paraText p) = false) :
    replacePara m p = p := by
  induction m with
  | nil => rfl
  | cons kv m ih =>
    have h0 : isSubstr kv.1 (paraText p) = false := h kv (by simp)
    have hstep : replaceRun p kv.1 kv.2 = p := by
      unfold replaceRun
      simp [h0]
    have hsame : replacePara (kv :: m) p = replacePara m p := by
      show replacePara m (replaceRun p kv.1 kv.2) = replacePara m p
      rw [hstep]
    rw [hsame]
    exact ih (fun kv' h' => h kv' (by simp [h']))

theorem allParas_replace (m : List (List Char × List Char)) (d : Document) :
    allParas (replace_text_in_docx m d) = (allParas d).map (replacePara m) := by
  simp [allParas, replace_text_in_docx, List.map_append, List.flatMap_map,
    List.map_flatMap]

theorem fmt_replaceRun (p : List Run) (k v : List Char) :
    (replaceRun p k v).map Run.fmt = p.map Run.fmt := by
  unfold replaceRun
  by_cases h : isSubstr k (paraText p) = true
  · simp only [h, if_true]
    cases p with
    | nil => rfl
    | cons r rs => simp [List.map_map]
  · simp [h]

theorem fmt_replacePara (m : List (List Char × List Char)) (p : List Run) :
    (replacePara m p).map Run.fmt = p.map Run.fmt := by
  induction m generalizing p with
  | nil => rfl
  | cons kv m ih =>
    calc (replacePara (kv :: m) p).map Run.fmt
        = (replacePara m (replaceRun p kv.1 kv.2)).map Run.fmt := rfl
      _ = (replaceRun p kv.1 kv.2).map Run.fmt := ih _
      _ = p.map Run.fmt := fmt_replaceRun p kv.1 kv.2

/-- After a firing replacement step all runs but the first are empty,
and this state is preserved by further steps. -/
theorem tailEmpty_replaceRun (p : List Run) (k v : List Char)
    (h : ∀ r ∈ p.drop 1, r.text = []) :
    ∀ r ∈ (replaceRun p k v).drop 1, r.text = [] := by
  unfold replaceRun
  by_cases hs : isSubstr k (paraText p) = true
  · simp only [hs, if_true]
    cases p with
    | nil => simp
    | cons r rs =>
      intro q hq
      simp only [List.drop_one, List.tail_cons, List.mem_map] at hq
      obtain ⟨q', _, rfl⟩ := hq
      rfl
  · simpa [hs] using h

theorem tailEmpty_replacePara (m : List (List Char × List Char)) (p : List Run)
    (h : ∀ r ∈ p.drop 1, r.text = []) :
    ∀ r ∈ (replacePara m p).drop 1, r.text = [] := by
  induction m generalizing p with
  | nil => exact h
  | cons kv m ih => exact ih _ (tailEmpty_replaceRun p kv.1 kv.2 h)

theorem paraText_replaceRun_of_not_fire (p : List Run) (k v : List Char)
    (h : isSubstr k (paraText p) = false) : replaceRun p k v = p := by
  unfold replaceRun
  simp [h]

/-- If the concatenated text of a paragraph changed at all, every run
after the first has been emptied. -/
theorem tailEmpty_of_text_changed (m : List (List Char × List Char)) (p : List Run)
    (h : paraText (replacePara m p) ≠ paraText p) :
    ∀ r ∈ (replacePara m p).drop 1, r.text = [] := by
  induction m generalizing p with
  | nil => exact absurd rfl h
  | cons kv m ih =>
    show ∀ r ∈ (replacePara m (replaceRun p kv.1 kv.2)).drop 1, r.text = []
    by_cases hs : isSubstr kv.1 (paraText p) = true
    · refine tailEmpty_replacePara m _ ?_
      unfold replaceRun
      simp only [hs, if_true]
      cases p with
      | nil => simp
      | cons r rs =>
        intro q hq
        simp only [List.drop_one, List.tail_cons, List.mem_map] at hq
        obtain ⟨q', _, rfl⟩ := hq
        rfl
    · have hfix : replaceRun p kv.1 kv.2 = p :=
        paraText_replaceRun_of_not_fire p kv.1 kv.2 (by simpa using hs)
      have h' : paraText (replacePara m (replaceRun p kv.1 kv.2)) ≠ paraText p := h
      rw [hfix] at h' ⊢
      exact ih p h'

/-- The mapping `{"a": "b", "b": "c"}`, in dict insertion order. -/
def mapAB : List (List Char × List Char) := [(['a'], ['b']), (['b'], ['c'])]

/-- A document whose single body paragraph is one run reading `"ab"`. -/
def docAB : Document := { paragraphs := [[⟨['a', 'b'], 0⟩]], tables := [] }

/-- A document with a body paragraph `"ab"` and a table-cell paragraph
`"xa"`. -/
def docABT : Document :=
  { paragraphs := [[⟨['a', 'b'], 0⟩]], tables := [[[[[⟨['x', 'a'], 3⟩]]]]] }

/-- C1 (claim as stated is refuted here): with the mapping
`{"a": "b", "b": "c"}` and a paragraph reading `"ab"`, the key `"a"`
occurs in the paragraph, but the final text `"cc"` is not the old text
with every occurrence of `"a"` replaced by `"b"` (which would be
`"bb"`): the entries of the mapping are applied sequentially and later
entries rewrite the output of earlier ones. -/
theorem claim_C1_counterexample :
    (isSubstr ['a'] (paraText ((allParas docAB).getD 0 [])) = true) ∧
    paraText ((allParas (replace_text_in_docx mapAB docAB)).getD 0 []) ≠
      pyReplace (paraText ((allParas docAB).getD 0 [])) ['a'] ['b'] := by
  decide

/-- C1 (amended): `replace_text_in_docx` rewrites every paragraph —
body paragraphs and table-cell paragraphs alike — so that its
concatenated run text equals the result of applying the guarded
replacements `text.replace(k, v)` sequentially, in mapping order
(for the nonempty keys the routine is used with); a paragraph in which
no mapping key occurs is kept verbatim.  The claim's single-key reading
holds only when entries do not interact; sequential application is what
the loop implements. -/
theorem claim_C1 (m : List (List Char × List Char)) (d : Document)
    (hm : ∀ kv ∈ m, kv.1 ≠ []) :
    (allParas (replace_text_in_docx m d) = (allParas d).map (replacePara m)) ∧
    (∀ p ∈ allParas d,
      paraText (replacePara m p) = m.foldl textStep (paraText p)) ∧
    (∀ p ∈ allParas d,
      (∀ kv ∈ m, isSubstr kv.1 (paraText p) = false) → replacePara m p = p) :=
  ⟨allParas_replace m d,
   fun p _ => paraText_replacePara m p hm,
   fun p _ h => replacePara_id m p h⟩

/-- C1 witness: the amended statement evaluated on a two-entry mapping
over a document with one body paragraph and one table-cell
paragraph. -/
theorem claim_C1_witness :
    ((∀ kv ∈ mapAB, kv.1 ≠ ([] : List Char)) ∧
     (allParas (replace_text_in_docx mapAB docABT) =
       (allParas docABT).map (replacePara mapAB)) ∧
     (∀ p ∈ allParas docABT,
       paraText (replacePara mapAB p) = mapAB.foldl textStep (paraText p)) ∧
     (∀ p ∈ allParas docABT,
       (∀ kv ∈ mapAB, isSubstr kv.1 (paraText p) = false) →
         replacePara mapAB p = p)) :=
  ⟨by decide, claim_C1 mapAB docABT (by decide)⟩

/-- C2 (claim as stated is refuted here): in a paragraph made of a run
`"foo"` with formatting `1` and a run `"bar"` with formatting `2`,
replacing `"foo"` by `"X"` leaves the text `"bar"` — which was no part
of any replaced token — in the first run: afterwards no nonempty run
carries formatting `2`, so `"bar"` lost its own run's formatting. -/
theorem claim_C2_counterexample :
    ((∃ r ∈ [Run.mk ['f', 'o', 'o'] 1, Run.mk ['b', 'a', 'r'] 2],
        r.fmt = 2 ∧ r.text = ['b', 'a', 'r']) ∧
     ¬(∃ r ∈ replacePara [(['f', 'o', 'o'], ['X'])]
          [Run.mk ['f', 'o', 'o'] 1, Run.mk ['b', 'a', 'r'] 2],
        r.fmt = 2 ∧ r.text ≠ [])) := by
  decide

/-- C2 (amended): `replace_text_in_docx` preserves the run skeleton of a
paragraph — the number of runs and each run's formatting, position by
position — but it does not keep text under its original run: whenever a
substitution changes a paragraph's concatenated text, the whole new text
is carried by the first run and every later run is emptied, so a piece
of text keeps its own run's formatting only if it already lived in the
first run. -/
theorem claim_C2 (m : List (List Char × List Char)) (p : List Run) :
    ((replacePara m p).map Run.fmt = p.map Run.fmt) ∧
    (paraText (replacePara m p) ≠ paraText p →
      ∀ r ∈ (replacePara m p).drop 1, r.text = []) :=
  ⟨fmt_replacePara m p, tailEmpty_of_text_changed m p⟩

/-- C2 witness: the amended statement evaluated on the two-run
paragraph of the counterexample, where the text does change. -/
theorem claim_C2_witness :
    ((replacePara [(['f', 'o', 'o'], ['X'])]
        [Run.mk ['f', 'o', 'o'] 1, Run.mk ['b', 'a', 'r'] 2]).map Run.fmt =
      [Run.mk ['f', 'o', 'o'] 1, Run.mk ['b', 'a', 'r'] 2].map Run.fmt) ∧
    (∀ r ∈ (replacePara [(['f', 'o', 'o'], ['X'])]
        [Run.mk ['f', 'o', 'o'] 1, Run.mk ['b', 'a', 'r'] 2]).drop 1,
      r.text = []) :=
  ⟨(claim_C2 _ _).1, (claim_C2 _ _).2 (by decide)⟩

/-- C8: a key split across several runs is still found and replaced:
the occurrence test and the rewrite both act on the paragraph's whole
concatenated run text, so for any paragraph of the document whose
concatenated text contains the (nonempty) key, the rewritten
concatenated text is exactly Python's `whole.replace(k, v)`, regardless
of how `whole` was tokenised into runs. -/
theorem claim_C8 (k v : List Char) (d : Document) (hk : k ≠ []) :
    ∀ p ∈ allParas d, isSubstr k (paraText p) = true →
      paraText (replacePara [(k, v)] p) = pyReplace (paraText p) k v := by
  intro p _ hocc
  have := paraText_replacePara [(k, v)] p (by simpa using hk)
  rw [this]
  simp [textStep, hocc]

/-- Python's whitespace class for `str.strip` / `str.split` / `\s`:
space, tab, newline, carriage return, vertical tab, form feed. -/
def pyIsSpace (c : Char) : Bool :=
  c = ' ' || c = '\t' || c = '\n' || c = '\r' || c = '\x0b' || c = '\x0c'

/-- Python's `str.strip()`. -/
def pyStrip (l : List Char) : List Char :=
  ((l.dropWhile pyIsSpace).reverse.dropWhile pyIsSpace).reverse

/-- Python's `str.splitlines()`, with the newline character as line
terminator: `""` gives `[]`, a trailing newline does not produce a
final empty line. -/
def splitLines : List Char → List (List Char)
  | [] => []
  | c :: rest =>
    if c = '\n' then [] :: splitLines rest
    else
      match splitLines rest with
      | [] => [[c]]
      | l :: ls => (c :: l) :: ls

/-- The words of a text, split on runs of whitespace (Python
`str.split()` with no argument, which is what `textwrap.fill` uses to
tokenise). -/
def wordsOf : List Char → List (List Char)
  | [] => []
  | c :: rest =>
    if pyIsSpace c then wordsOf rest
    else
      match rest with
      | [] => [[c]]
      | d :: _ =>
        if pyIsSpace d then [c] :: wordsOf rest
        else
          match wordsOf rest with
          | [] => [[c]]
          | w :: ws => (c :: w) :: ws

/-- Greedy line filling of `textwrap.fill`: `cur` is the line being
built; a word joins it if the line stays within the width, otherwise it
opens a new line. -/
def fillAux (width : Nat) (cur : List Char) : List (List Char) → List (List Char)
  | [] => [cur]
  | w :: ws =>
    if cur.length + 1 + w.length ≤ width then
      fillAux width (cur ++ ' ' :: w) ws
    else
      cur :: fillAux width w ws

/-- `textwrap.fill(text, 120).split("\n")` as used by `add_paragraph`:
the greedy wrap of the text's words at width 120 (very long single
words are not broken here — the engine never produces one), with
`[""]` for a wordless text, as `"".split("\n") == [""]`. -/
def wrap120 (t : List Char) : List (List Char) :=
  match wordsOf t with
  | [] => [[]]
  | w :: ws => fillAux 120 w ws

/-- A run of a paragraph created by the document builders: its text,
and the `bold` / `font.size` attributes `add_heading` sets (a plain
`doc.add_paragraph(text)` run leaves both unset). -/
structure PRun where
  text : List Char
  bold : Option Bool
  size : Option Nat
deriving DecidableEq

/-- An element appended to the document body: a paragraph with its
runs, or a picture (`add_picture`). -/
inductive BodyItem where
  | par (runs : List PRun)
  | pic
deriving DecidableEq

/-- A paragraph added by `doc.add_paragraph(text)`: one run with
default formatting. -/
def mkPlain (l : List Char) : BodyItem := BodyItem.par [⟨l, none, none⟩]

/-- The paragraph `add_heading` builds: one bold run whose font size is
16/14/12 pt for level 1/2/other. -/
def hdgItem (text : List Char) (level : Nat) : BodyItem :=
  BodyItem.par
    [⟨text, some true, some (if level = 1 then 16 else if level = 2 then 14 else 12)⟩]

/-- `add_heading(doc, text, level)` (app.py lines 348-359): appends one
paragraph holding a single bold run sized by the level. -/
def add_heading (doc : List BodyItem) (text : List Char) (level : Nat) :
    List BodyItem :=
  doc ++ [hdgItem text level]

/-- `add_paragraph(doc, text)` (app.py lines 362-366): wraps the text at
width 120 and appends one plain paragraph per wrapped line. -/
def add_paragraph (doc : List BodyItem) (text : List Char) : List BodyItem :=
  doc ++ (wrap120 text).map mkPlain

/-- `summarise_text_blocks(blocks, max_chars)` (app.py lines 414-418):
join the blocks with blank lines and truncate to `max_chars` characters
plus an ellipsis. -/
def summarise_text_blocks (blocks : List (List Char)) (max_chars : Nat) :
    List Char :=
  let text := List.intercalate ['\n', '\n'] blocks
  if text.length ≤ max_chars then text else text.take max_chars ++ ['.', '.', '.']

/-- The host markers `fetch_and_clean` refuses (app.py line 399). -/
def badHosts : List (List Char) :=
  ["wikipedia.org".toList, "/blog".toList, "medium.com".toList,
   "wordpress".toList, "blogspot".toList]

/-- Python's `str.lower()` (the URLs at hand are ASCII). -/
def pyLower (s : List Char) : List Char := s.map Char.toLower

/-- `fetch_and_clean(url)` (app.py lines 394-411).  `deps` says whether
`requests`/`BeautifulSoup` imported; `attempt` is the network-and-parse
oracle: `some text` when `requests.get`, `raise_for_status` and the soup
cleaning pipeline succeed with cleaned text `text`, `none` when any of
those steps raises.  Every failure path returns `(url, "")`. -/
def fetch_and_clean (deps : Bool) (attempt : List Char → Option (List Char))
    (url : List Char) : List Char × List Char :=
  if deps = false then (url, [])
  else if badHosts.any (fun b => isSubstr b (pyLower url)) then (url, [])
  else
    match attempt url with
    | none => (url, [])
    | some t => (url, t)

/-- C8 witness: the key `"ab"` is split over two runs (`"a"` with one
formatting, `"b"` with another); it is still replaced by `"XY"`. -/
theorem claim_C8_witness :
    (['a', 'b'] ≠ ([] : List Char)) ∧
    isSubstr ['a', 'b'] (paraText [Run.mk ['a'] 0, Run.mk ['b'] 1]) = true ∧
    paraText (replacePara [(['a', 'b'], ['X', 'Y'])] [Run.mk ['a'] 0, Run.mk ['b'] 1]) =
      pyReplace (paraText [Run.mk ['a'] 0, Run.mk ['b'] 1]) ['a', 'b'] ['X', 'Y'] :=
  ⟨by decide, by decide,
   claim_C8 ['a', 'b'] ['X', 'Y']
     { paragraphs := [[Run.mk ['a'] 0, Run.mk ['b'] 1]], tables := [] }
     (by decide) [Run.mk ['a'] 0, Run.mk ['b'] 1] (by decide) (by decide)⟩

/-- C9: `summarise_text_blocks` joins the blocks with blank lines; it
returns the join unchanged when it fits in `max_chars` characters, and
otherwise exactly the first `max_chars` characters followed by `"..."`;
in particular the result never exceeds `max_chars + 3` characters. -/
theorem claim_C9 (blocks : List (List Char)) (max_chars : Nat) :
    ((summarise_text_blocks blocks max_chars).length ≤ max_chars + 3) ∧
    ((List.intercalate ['\n', '\n'] blocks).length ≤ max_chars →
      summarise_text_blocks blocks max_chars =
        List.intercalate ['\n', '\n'] blocks) ∧
    (max_chars < (List.intercalate ['\n', '\n'] blocks).length →
      summarise_text_blocks blocks max_chars =
        (List.intercalate ['\n', '\n'] blocks).take max_chars ++ ['.', '.', '.']) := by
  unfold summarise_text_blocks
  by_cases h : (List.intercalate ['\n', '\n'] blocks).length ≤ max_chars
  · refine ⟨?_, fun _ => by simp [h], fun hlt => absurd h (by omega)⟩
    simp only [h, if_true]
    omega
  · refine ⟨?_, fun hle => absurd hle h, fun _ => by simp [h]⟩
    simp only [h, if_false]
    simp only [List.length_append, List.length_take, List.length_cons,
      List.length_nil]
    omega

/-- C9 witness: two blocks whose join `"ab\n\nc"` (5 characters)
overflows a budget of 3. -/
theorem claim_C9_witness :
    ((summarise_text_blocks [['a', 'b'], ['c']] 3).length ≤ 3 + 3) ∧
    (3 < (List.intercalate ['\n', '\n'] [['a', 'b'], ['c']]).length) ∧
    (summarise_text_blocks [['a', 'b'], ['c']] 3 =
      (List.intercalate ['\n', '\n'] [['a', 'b'], ['c']]).take 3 ++ ['.', '.', '.']) :=
  ⟨(claim_C9 [['a', 'b'], ['c']] 3).1, by decide,
   (claim_C9 [['a', 'b'], ['c']] 3).2.2 (by decide)⟩

/-- C10: `fetch_and_clean` is total and returns `(url, "")` on every
failure path: when the optional HTTP/HTML dependencies are missing,
when the lowercased URL contains one of the blocked-host markers, and
when the fetch-and-parse pipeline raises (modelled by the oracle
returning `none`). -/
theorem claim_C10 (deps : Bool) (attempt : List Char → Option (List Char))
    (url : List Char) :
    (fetch_and_clean false attempt url = (url, [])) ∧
    (badHosts.any (fun b => isSubstr b (pyLower url)) = true →
      fetch_and_clean deps attempt url = (url, [])) ∧
    (attempt url = none → fetch_and_clean deps attempt url = (url, [])) := by
  refine ⟨by simp [fetch_and_clean], fun hblock => ?_, fun hnone => ?_⟩
  · cases deps with
    | false => simp [fetch_and_clean]
    | true => simp [fetch_and_clean, hblock]
  · cases deps with
    | false => simp [fetch_and_clean]
    | true =>
      by_cases hblock : badHosts.any (fun b => isSubstr b (pyLower url)) = true
      · simp [fetch_and_clean, hblock]
      · simp [fetch_and_clean, hblock, hnone]

/-- C10 witness: a Wikipedia URL in mixed case is blocked even though
the oracle would fail anyway. -/
theorem claim_C10_witness :
    (badHosts.any (fun b => isSubstr b (pyLower ("https://en.WIKIPEDIA.org/A").toList)) = true) ∧
    fetch_and_clean true (fun _ => none) ("https://en.WIKIPEDIA.org/A").toList =
      (("https://en.WIKIPEDIA.org/A").toList, []) :=
  ⟨by decide,
   (claim_C10 true (fun _ => none) ("https://en.WIKIPEDIA.org/A").toList).2.1 (by decide)⟩

/-- A call to one of the two section-appender helpers. -/
inductive AppendCall where
  | heading (text : List Char) (level : Nat)
  | paragraph (text : List Char)

/-- Dispatch one appender call. -/
def applyStep (d : List BodyItem) : AppendCall → List BodyItem
  | AppendCall.heading t l => add_heading d t l
  | AppendCall.paragraph t => add_paragraph d t

/-- A sequence of `add_heading` / `add_paragraph` calls against a
document. -/
def applyCalls (d : List BodyItem) (cs : List AppendCall) : List BodyItem :=
  cs.foldl applyStep d

theorem applyStep_append (d : List BodyItem) (c : AppendCall) :
    applyStep d c = d ++ applyStep [] c := by
  cases c <;> simp [applyStep, add_heading, add_paragraph]

/-- C7: the section appenders only ever add content at the end: after
any sequence of `add_heading` / `add_paragraph` calls the old document
is an unchanged prefix of the new one — every pre-existing paragraph is
still there, at its old position, with its old runs — and everything
new sits after it. -/
theorem claim_C7 (d : List BodyItem) (cs : List AppendCall) :
    ∃ tl, applyCalls d cs = d ++ tl ∧
      ∀ i, i < d.length →
        (applyCalls d cs).getD i BodyItem.pic = d.getD i BodyItem.pic := by
  induction cs generalizing d with
  | nil => exact ⟨[], by simp [applyCalls], fun i _ => rfl⟩
  | cons c cs ih =>
    obtain ⟨tl, h1, _⟩ := ih (applyStep d c)
    have hstep : applyCalls d (c :: cs) = applyCalls (applyStep d c) cs := rfl
    refine ⟨applyStep [] c ++ tl, ?_, ?_⟩
    · rw [hstep, h1, applyStep_append, List.append_assoc]
    · intro i hi
      rw [hstep, h1, applyStep_append, List.append_assoc, List.getD_append _ _ _ _ hi]

/-- C7 witness: one heading and one paragraph appended to a one-element
document. -/
theorem claim_C7_witness :
    ∃ tl,
      applyCalls [mkPlain ['x']]
        [AppendCall.heading ['h'] 1, AppendCall.paragraph ['p']] =
        [mkPlain ['x']] ++ tl ∧
      ∀ i, i < [mkPlain ['x']].length →
        (applyCalls [mkPlain ['x']]
          [AppendCall.heading ['h'] 1, AppendCall.paragraph ['p']]).getD i BodyItem.pic =
          [mkPlain ['x']].getD i BodyItem.pic :=
  claim_C7 [mkPlain ['x']] [AppendCall.heading ['h'] 1, AppendCall.paragraph ['p']]

/-- The heading text of the Industry Analysis section. -/
def iaTitle : List Char := "Industry Analysis".toList

/-- The heading text of the numbered reference list. -/
def refTitle : List Char := "References".toList

/-- The `f"Jurisdiction: {country}. Year: {target_year}."` paragraph. -/
def jurisLine (country : List Char) (year : Nat) : List Char :=
  "Jurisdiction: ".toList ++ country ++ ". Year: ".toList ++
    Nat.toDigits 10 year ++ ['.']

/-- `urls = [u.strip() for u in urls_text.splitlines() if u.strip()]`:
the non-blank URL lines, stripped. -/
def tpdUrls (urlsText : List Char) : List (List Char) :=
  ((splitLines urlsText).map pyStrip).filter (fun u => decide (u ≠ []))

/-- The `fetched` list: each URL paired with its cleaned text (the
oracle `F` is the second component of `fetch_and_clean`), keeping only
the pairs with nonempty text. -/
def tpdFetched (F : List Char → List Char) (urls : List (List Char)) :
    List (List Char × List Char) :=
  (urls.map (fun u => (u, F u))).filter (fun p => decide (p.2 ≠ []))

/-- `research_summary = summarise_text_blocks([t for _, t in fetched], 1800)`. -/
def researchSummary (F : List Char → List Char) (urlsText : List Char) :
    List Char :=
  summarise_text_blocks ((tpdFetched F (tpdUrls urlsText)).map Prod.snd) 1800

/-- One numbered reference paragraph `f"[{i}] {u}"` added with the raw
`doc.add_paragraph`. -/
def refItem (i : Nat) (u : List Char) : BodyItem :=
  mkPlain ('[' :: (Nat.toDigits 10 i ++ ']' :: ' ' :: u))

/-- The reference paragraphs, numbered from 1 in `fetched` order. -/
def refList (fetched : List (List Char × List Char)) : List BodyItem :=
  fetched.enum.map (fun p => refItem (p.1 + 1) p.2.1)

/-- The Industry-Analysis append block of the TPD generator (app.py
lines 689-704): when at least one URL was supplied, append the section
heading and the jurisdiction/year paragraph, then the research summary
when it is nonempty, then the illustrative chart when matplotlib
produced one, then — when some URL yielded text — the References
heading and the numbered reference paragraphs. -/
def tpdIndustryAppend (country : List Char) (year : Nat)
    (F : List Char → List Char) (urlsText : List Char) (havePng : Bool)
    (doc : List BodyItem) : List BodyItem :=
  if tpdUrls urlsText ≠ [] then
    let d1 := add_heading doc iaTitle 1
    let d2 := add_paragraph d1 (jurisLine country year)
    let d3 :=
      if researchSummary F urlsText ≠ [] then
        add_paragraph d2 (researchSummary F urlsText)
      else d2
    let d4 := if havePng then d3 ++ [BodyItem.pic] else d3
    if tpdFetched F (tpdUrls urlsText) ≠ [] then
      add_heading d4 refTitle 2 ++ refList (tpdFetched F (tpdUrls urlsText))
    else d4
  else doc

/-- The items the Industry-Analysis block appends (when URLs exist). -/
def iaTail (country : List Char) (year : Nat) (F : List Char → List Char)
    (urlsText : List Char) (havePng : Bool) : List BodyItem :=
  hdgItem iaTitle 1 ::
    ((wrap120 (jurisLine country year)).map mkPlain ++
      ((if researchSummary F urlsText ≠ [] then
          (wrap120 (researchSummary F urlsText)).map mkPlain
        else []) ++
        ((if havePng then [BodyItem.pic] else []) ++
          (if tpdFetched F (tpdUrls urlsText) ≠ [] then
            hdgItem refTitle 2 :: refList (tpdFetched F (tpdUrls urlsText))
          else []))))

theorem tpdIndustryAppend_eq (country : List Char) (year : Nat)
    (F : List Char → List Char) (urlsText : List Char) (havePng : Bool)
    (doc : List BodyItem) :
    tpdIndustryAppend country year F urlsText havePng doc =
      if tpdUrls urlsText ≠ [] then
        doc ++ iaTail country year F urlsText havePng
      else doc := by
  unfold tpdIndustryAppend iaTail
  by_cases hu : tpdUrls urlsText ≠ []
  · simp only [hu, if_true]
    by_cases hrs : researchSummary F urlsText ≠ [] <;>
      by_cases hp : havePng <;>
        by_cases hf : tpdFetched F (tpdUrls urlsText) ≠ [] <;>
          simp [hrs, hp, hf, add_heading, add_paragraph, List.append_assoc]
  · simp [hu]

theorem hdg_ne_plain (t : List Char) (l : Nat) (x : List Char) :
    hdgItem t l ≠ mkPlain x := by
  simp [hdgItem, mkPlain]

theorem hdg_not_mem_plains (t : List Char) (l : Nat) (L : List (List Char)) :
    hdgItem t l ∉ L.map mkPlain := by
  intro h
  obtain ⟨x, _, hx⟩ := List.mem_map.mp h
  exact hdg_ne_plain t l x hx.symm

theorem hdg_not_mem_refList (t : List Char) (l : Nat)
    (fetched : List (List Char × List Char)) :
    hdgItem t l ∉ refList fetched := by
  intro h
  obtain ⟨p, _, hp⟩ := List.mem_map.mp h
  exact hdg_ne_plain t l _ hp.symm

theorem ia_ne_ref : hdgItem iaTitle 1 ≠ hdgItem refTitle 2 := by
  decide

theorem summarise_nil (mc : Nat) : summarise_text_blocks [] mc = [] := by
  simp [summarise_text_blocks, List.intercalate]

theorem intercalate_cons_ne_nil (sep x : List Char) (xs : List (List Char))
    (hx : x ≠ []) : List.intercalate sep (x :: xs) ≠ [] := by
  cases xs with
  | nil => simpa [List.intercalate] using hx
  | cons y ys => simp [List.intercalate, hx]

theorem summarise_ne_nil (blocks : List (List Char)) (mc : Nat)
    (h : List.intercalate ['\n', '\n'] blocks ≠ []) :
    summarise_text_blocks blocks mc ≠ [] := by
  unfold summarise_text_blocks
  by_cases hle : (List.intercalate ['\n', '\n'] blocks).length ≤ mc
  · simpa [hle] using h
  · simp [hle]

/-- The research summary is nonempty exactly when some URL produced
text. -/
theorem researchSummary_ne_nil_iff (F : List Char → List Char)
    (urlsText : List Char) :
    researchSummary F urlsText ≠ [] ↔ tpdFetched F (tpdUrls urlsText) ≠ [] := by
  unfold researchSummary
  constructor
  · intro h hf
    rw [hf] at h
    exact h (by simpa using summarise_nil 1800)
  · intro hf
    obtain ⟨p, rest, hp⟩ := List.exists_cons_of_ne_nil hf
    have hp2 : p.2 ≠ [] := by
      have hmem : p ∈ tpdFetched F (tpdUrls urlsText) := by rw [hp]; simp
      have := List.of_mem_filter hmem
      simpa using this
    rw [hp]
    exact summarise_ne_nil _ 1800
      (by simpa using intercalate_cons_ne_nil ['\n', '\n'] p.2 (rest.map Prod.snd) hp2)

/-- `fetched` is nonempty exactly when some supplied URL yields
nonempty cleaned text. -/
theorem tpdFetched_ne_nil_iff (F : List Char → List Char)
    (urls : List (List Char)) :
    tpdFetched F urls ≠ [] ↔ ∃ u ∈ urls, F u ≠ [] := by
  constructor
  · intro h
    obtain ⟨p, hp⟩ := List.exists_mem_of_ne_nil _ h
    have hmem := List.mem_of_mem_filter hp
    have hne := List.of_mem_filter hp
    obtain ⟨u, hu, rfl⟩ := List.mem_map.mp hmem
    exact ⟨u, hu, by simpa using hne⟩
  · rintro ⟨u, hu, hFu⟩
    intro h
    have : (u, F u) ∈ tpdFetched F urls := by
      unfold tpdFetched
      rw [List.mem_filter]
      exact ⟨List.mem_map.mpr ⟨u, hu, rfl⟩, by simpa using hFu⟩
    rw [h] at this
    simp at this

/-- C6: the Industry Analysis section (heading and jurisdiction/year
paragraph, plus the research summary exactly when some URL produced
text) is appended iff at least one non-blank URL line was supplied;
the References heading is appended iff some supplied URL yielded
nonempty cleaned text; and with no URLs the generated document gains
nothing.  All content is appended after the existing document. -/
theorem claim_C6 (country : List Char) (year : Nat)
    (F : List Char → List Char) (urlsText : List Char) (havePng : Bool)
    (doc : List BodyItem) :
    (tpdIndustryAppend country year F urlsText havePng doc =
      doc ++ tpdIndustryAppend country year F urlsText havePng []) ∧
    (hdgItem iaTitle 1 ∈ tpdIndustryAppend country year F urlsText havePng [] ↔
      tpdUrls urlsText ≠ []) ∧
    (hdgItem refTitle 2 ∈ tpdIndustryAppend country year F urlsText havePng [] ↔
      tpdFetched F (tpdUrls urlsText) ≠ []) ∧
    (tpdUrls urlsText = [] →
      tpdIndustryAppend country year F urlsText havePng doc = doc) ∧
    (researchSummary F urlsText ≠ [] ↔ tpdFetched F (tpdUrls urlsText) ≠ []) ∧
    (tpdFetched F (tpdUrls urlsText) ≠ [] ↔ ∃ u ∈ tpdUrls urlsText, F u ≠ []) := by
  refine ⟨?_, ?_, ?_, ?_, researchSummary_ne_nil_iff F urlsText,
    tpdFetched_ne_nil_iff F (tpdUrls urlsText)⟩
  · rw [tpdIndustryAppend_eq, tpdIndustryAppend_eq]
    by_cases hu : tpdUrls urlsText ≠ [] <;> simp [hu]
  · rw [tpdIndustryAppend_eq]
    by_cases hu : tpdUrls urlsText ≠ []
    · rw [if_pos hu, List.nil_append]
      unfold iaTail
      simp [hu]
    · simp [hu]
  · rw [tpdIndustryAppend_eq]
    by_cases hu : tpdUrls urlsText ≠ []
    · rw [if_pos hu, List.nil_append]
      unfold iaTail
      constructor
      · intro hmem
        rcases List.mem_cons.mp hmem with h | h
        · exact absurd h.symm ia_ne_ref
        rcases List.mem_append.mp h with h | h
        · exact absurd h (hdg_not_mem_plains _ _ _)
        rcases List.mem_append.mp h with h | h
        · split at h
          · exact absurd h (hdg_not_mem_plains _ _ _)
          · simp at h
        rcases List.mem_append.mp h with h | h
        · split at h
          · simp [hdgItem] at h
          · simp at h
        · split at h
          · next hcond => exact hcond
          · simp at h
      · intro hf
        refine List.mem_cons.mpr (Or.inr ?_)
        refine List.mem_append.mpr (Or.inr ?_)
        refine List.mem_append.mpr (Or.inr ?_)
        refine List.mem_append.mpr (Or.inr ?_)
        rw [if_pos hf]
        exact List.mem_cons_self _ _
    · have hnil : tpdUrls urlsText = [] := not_not.mp hu
      have hfnil : tpdFetched F (tpdUrls urlsText) = [] := by
        rw [hnil]
        rfl
      simp [hu, hfnil]
  · intro hu
    rw [tpdIndustryAppend_eq]
    simp [hu]

/-- C6 witness: two URL lines, one of which yields text, against a
one-paragraph document. -/
theorem claim_C6_witness :
    (tpdIndustryAppend ("SG").toList 2024
        (fun u => if u = ("http://a").toList then ("DATA").toList else [])
        ("http://a\nhttp://b\n").toList true [mkPlain ['x']] =
      [mkPlain ['x']] ++
        tpdIndustryAppend ("SG").toList 2024
          (fun u => if u = ("http://a").toList then ("DATA").toList else [])
          ("http://a\nhttp://b\n").toList true []) ∧
    (hdgItem iaTitle 1 ∈
        tpdIndustryAppend ("SG").toList 2024
          (fun u => if u = ("http://a").toList then ("DATA").toList else [])
          ("http://a\nhttp://b\n").toList true [] ↔
      tpdUrls ("http://a\nhttp://b\n").toList ≠ []) ∧
    (hdgItem refTitle 2 ∈
        tpdIndustryAppend ("SG").toList 2024
          (fun u => if u = ("http://a").toList then ("DATA").toList else [])
          ("http://a\nhttp://b\n").toList true [] ↔
      tpdFetched (fun u => if u = ("http://a").toList then ("DATA").toList else [])
          (tpdUrls ("http://a\nhttp://b\n").toList) ≠ []) ∧
    (tpdUrls ("http://a\nhttp://b\n").toList = [] →
      tpdIndustryAppend ("SG").toList 2024
          (fun u => if u = ("http://a").toList then ("DATA").toList else [])
          ("http://a\nhttp://b\n").toList true [mkPlain ['x']] = [mkPlain ['x']]) ∧
    (researchSummary
        (fun u => if u = ("http://a").toList then ("DATA").toList else [])
        ("http://a\nhttp://b\n").toList ≠ [] ↔
      tpdFetched (fun u => if u = ("http://a").toList then ("DATA").toList else [])
          (tpdUrls ("http://a\nhttp://b\n").toList) ≠ []) ∧
    (tpdFetched (fun u => if u = ("http://a").toList then ("DATA").toList else [])
          (tpdUrls ("http://a\nhttp://b\n").toList) ≠ [] ↔
      ∃ u ∈ tpdUrls ("http://a\nhttp://b\n").toList,
        (if u = ("http://a").toList then ("DATA").toList else ([] : List Char)) ≠ []) :=
  claim_C6 ("SG").toList 2024
    (fun u => if u = ("http://a").toList then ("DATA").toList else [])
    ("http://a\nhttp://b\n").toList true [mkPlain ['x']]

/-- The numeric value of a digit character. -/
def c2n (c : Char) : Nat := c.toNat - 48

/-- The body `(20\d{2}|19\d{2})` of `YEAR_RE` on four characters. -/
def yearShape (a b c d : Char) : Bool :=
  ((a = '2' && b = '0') || (a = '1' && b = '9')) && c.isDigit && d.isDigit

/-- `YEAR_RE = (?<!\d)(20\d{2}|19\d{2})(?!\d)` (app.py line 221) matches
at position `i` of `s`: four characters of year shape, not preceded and
not followed by a digit (the `getD` default `' '` is not a digit, so
positions beyond the string behave like the string boundary). -/
def isYearTok (s : List Char) (i : Nat) : Bool :=
  decide (i + 4 ≤ s.length) &&
    yearShape (s.getD i ' ') (s.getD (i + 1) ' ') (s.getD (i + 2) ' ')
      (s.getD (i + 3) ' ') &&
    (decide (i = 0) || !(s.getD (i - 1) ' ').isDigit) &&
    !(s.getD (i + 4) ' ').isDigit

/-- The numeric value of the four characters at position `i`. -/
def valAt (s : List Char) (i : Nat) : Nat :=
  1000 * c2n (s.getD i ' ') + 100 * c2n (s.getD (i + 1) ' ') +
    10 * c2n (s.getD (i + 2) ' ') + c2n (s.getD (i + 3) ' ')

/-- The values of all `YEAR_RE` matches of `s`, in order —
`[int(y) for y in YEAR_RE.findall(text)]`.  `findall` scans left to
right and resumes after each match, but the lookbehind `(?<!\d)` makes
any two match positions at least four apart (`isYearTok_disjoint`), so
the scan finds exactly the positions where `isYearTok` holds. -/
def yearTokens (s : List Char) : List Nat :=
  (List.range s.length).filterMap
    (fun i => if isYearTok s i = true then some (valAt s i) else none)

/-- `years = sorted({int(y) for y in YEAR_RE.findall(text)})`. -/
def sortedYears (s : List Char) : List Nat :=
  List.insertionSort (· ≤ ·) (yearTokens s).dedup

/-- Python's `str(y)` for a four-digit number `1000 ≤ y ≤ 9999`. -/
def toChars4 (n : Nat) : List Char :=
  [Char.ofNat (48 + n / 1000 % 10), Char.ofNat (48 + n / 100 % 10),
   Char.ofNat (48 + n / 10 % 10), Char.ofNat (48 + n % 10)]

theorem isDigit_iff_toNat (c : Char) :
    c.isDigit = true ↔ 48 ≤ c.toNat ∧ c.toNat ≤ 57 := by
  simp only [Char.isDigit, decide_eq_true_eq, Bool.and_eq_true]
  constructor
  · rintro ⟨h1, h2⟩
    exact ⟨h1, h2⟩
  · rintro ⟨h1, h2⟩
    exact ⟨h1, h2⟩

theorem c2n_le_of_isDigit (c : Char) (h : c.isDigit = true) : c2n c ≤ 9 := by
  have := (isDigit_iff_toNat c).mp h
  unfold c2n
  omega

theorem char_eq_of_digit_toNat (c : Char) (n : Nat) (h : c.toNat = n) :
    c = Char.ofNat n := by
  rw [← h, Char.ofNat_toNat]

theorem ofNat48_toNat (d : Nat) (h : d < 10) :
    (Char.ofNat (48 + d)).toNat = 48 + d := by
  interval_cases d <;> decide

/-- The regex body recognises exactly the four-digit windows whose
value lies in 1900..2099. -/
theorem yearShape_iff (a b c d : Char) :
    yearShape a b c d = true ↔
      (a.isDigit = true ∧ b.isDigit = true ∧ c.isDigit = true ∧
        d.isDigit = true ∧
        1900 ≤ 1000 * c2n a + 100 * c2n b + 10 * c2n c + c2n d ∧
        1000 * c2n a + 100 * c2n b + 10 * c2n c + c2n d ≤ 2099) := by
  constructor
  · intro h
    simp only [yearShape, Bool.and_eq_true, Bool.or_eq_true,
      decide_eq_true_eq] at h
    obtain ⟨⟨hab, hc⟩, hd⟩ := h
    have hc9 := c2n_le_of_isDigit c hc
    have hd9 := c2n_le_of_isDigit d hd
    rcases hab with ⟨ha, hb⟩ | ⟨ha, hb⟩ <;> subst ha <;> subst hb
    · have e1 : c2n '2' = 2 := by decide
      have e2 : c2n '0' = 0 := by decide
      refine ⟨by decide, by decide, hc, hd, ?_, ?_⟩ <;> rw [e1, e2] <;> omega
    · have e1 : c2n '1' = 1 := by decide
      have e2 : c2n '9' = 9 := by decide
      refine ⟨by decide, by decide, hc, hd, ?_, ?_⟩ <;> rw [e1, e2] <;> omega
  · rintro ⟨ha, hb, hc, hd, h1, h2⟩
    have ha' := (isDigit_iff_toNat a).mp ha
    have hb' := (isDigit_iff_toNat b).mp hb
    have hc9 := c2n_le_of_isDigit c hc
    have hd9 := c2n_le_of_isDigit d hd
    have hcc := (isDigit_iff_toNat c).mp hc
    have hdd := (isDigit_iff_toNat d).mp hd
    have hcase : (c2n a = 1 ∧ c2n b = 9) ∨ (c2n a = 2 ∧ c2n b = 0) := by
      unfold c2n at h1 h2 ⊢
      omega
    rcases hcase with ⟨ha1, hb1⟩ | ⟨ha1, hb1⟩
    · have : a = '1' := char_eq_of_digit_toNat a 49 (by unfold c2n at ha1; omega)
      have hbv : b = '9' := char_eq_of_digit_toNat b 57 (by unfold c2n at hb1; omega)
      subst this; subst hbv
      simp [yearShape, hc, hd]
    · have : a = '2' := char_eq_of_digit_toNat a 50 (by unfold c2n at ha1; omega)
      have hbv : b = '0' := char_eq_of_digit_toNat b 48 (by unfold c2n at hb1; omega)
      subst this; subst hbv
      simp [yearShape, hc, hd]

/-- Characterisation of the `YEAR_RE` match positions: four digits in
1900..2099 with no adjacent digit on either side. -/
theorem isYearTok_iff (s : List Char) (i : Nat) :
    isYearTok s i = true ↔
      (i + 4 ≤ s.length ∧
       (∀ j, j < 4 → (s.getD (i + j) ' ').isDigit = true) ∧
       1900 ≤ valAt s i ∧ valAt s i ≤ 2099 ∧
       (i = 0 ∨ (s.getD (i - 1) ' ').isDigit = false) ∧
       (i + 4 = s.length ∨ (s.getD (i + 4) ' ').isDigit = false)) := by
  unfold isYearTok valAt
  constructor
  · intro h
    simp only [Bool.and_eq_true, Bool.or_eq_true, decide_eq_true_eq,
      Bool.not_eq_true'] at h
    obtain ⟨⟨⟨hlen, hshape⟩, hpre⟩, hpost⟩ := h
    obtain ⟨ha, hb, hc, hd, h1, h2⟩ := (yearShape_iff _ _ _ _).mp hshape
    refine ⟨hlen, ?_, h1, h2, ?_, ?_⟩
    · intro j hj
      interval_cases j
      · simpa using ha
      · exact hb
      · exact hc
      · exact hd
    · rcases hpre with h | h
      · exact Or.inl h
      · exact Or.inr h
    · by_cases hend : i + 4 = s.length
      · exact Or.inl hend
      · exact Or.inr hpost
  · rintro ⟨hlen, hdig, h1, h2, hpre, hpost⟩
    have ha := hdig 0 (by omega)
    have hb := hdig 1 (by omega)
    have hc := hdig 2 (by omega)
    have hd := hdig 3 (by omega)
    simp only [Nat.add_zero] at ha
    have hshape : yearShape (s.getD i ' ') (s.getD (i + 1) ' ')
        (s.getD (i + 2) ' ') (s.getD (i + 3) ' ') = true :=
      (yearShape_iff _ _ _ _).mpr ⟨ha, hb, hc, hd, h1, h2⟩
    simp only [Bool.and_eq_true, Bool.or_eq_true, decide_eq_true_eq,
      Bool.not_eq_true']
    refine ⟨⟨⟨hlen, hshape⟩, ?_⟩, ?_⟩
    · rcases hpre with h | h
      · exact Or.inl h
      · exact Or.inr h
    · rcases hpost with h | h
      · have : s.getD (i + 4) ' ' = ' ' := by
          apply List.getD_eq_default
          omega
        rw [this]
        decide
      · exact h

/-- Two `YEAR_RE` matches never overlap (so `findall` reports all of
them): the lookbehind of the later match would see a digit of the
earlier window. -/
theorem isYearTok_disjoint (s : List Char) (i j : Nat)
    (hi : isYearTok s i = true) (hj : isYearTok s j = true) (hij : i < j) :
    i + 4 ≤ j := by
  by_contra hcon
  have hdig := ((isYearTok_iff s i).mp hi).2.1
  have hj' := (isYearTok_iff s j).mp hj
  have hpre := hj'.2.2.2.2.1
  rcases hpre with h0 | hnd
  · omega
  · have heq : j - 1 = i + (j - 1 - i) := by omega
    have hlt : j - 1 - i < 4 := by omega
    have hd2 := hdig (j - 1 - i) hlt
    rw [← heq] at hd2
    rw [hd2] at hnd
    exact absurd hnd (by decide)

theorem length_dropWhile_le (p : Char → Bool) (l : List Char) :
    (l.dropWhile p).length ≤ l.length := by
  induction l with
  | nil => simp
  | cons c t ih =>
    rw [List.dropWhile_cons]
    split
    · exact ih.trans (by simp)
    · simp

theorem takeWhile_append_all (p : Char → Bool) (A B : List Char)
    (h : ∀ a ∈ A, p a = true) : (A ++ B).takeWhile p = A ++ B.takeWhile p := by
  induction A with
  | nil => simp
  | cons a A ih =>
    have ha : p a = true := h a (by simp)
    rw [List.cons_append, List.takeWhile_cons, if_pos ha, List.cons_append,
      ih (fun x hx => h x (by simp [hx]))]

theorem dropWhile_append_all (p : Char → Bool) (A B : List Char)
    (h : ∀ a ∈ A, p a = true) : (A ++ B).dropWhile p = B.dropWhile p := by
  induction A with
  | nil => simp
  | cons a A ih =>
    have ha : p a = true := h a (by simp)
    rw [List.cons_append, List.dropWhile_cons, if_pos ha,
      ih (fun x hx => h x (by simp [hx]))]

theorem takeWhile_append_not (p : Char → Bool) (A : List Char) (c : Char)
    (B : List Char) (hc : p c = false) :
    (A ++ c :: B).takeWhile p = A.takeWhile p := by
  induction A with
  | nil => simp [List.takeWhile_cons, hc]
  | cons a A ih =>
    rw [List.cons_append, List.takeWhile_cons, List.takeWhile_cons]
    split <;> simp [ih]

theorem dropWhile_append_not (p : Char → Bool) (A : List Char) (c : Char)
    (B : List Char) (hc : p c = false) :
    (A ++ c :: B).dropWhile p = A.dropWhile p ++ c :: B := by
  induction A with
  | nil => simp [List.dropWhile_cons, hc]
  | cons a A ih =>
    rw [List.cons_append, List.dropWhile_cons, List.dropWhile_cons]
    split <;> simp [ih]

theorem takeWhile_all (p : Char → Bool) (A : List Char)
    (h : ∀ a ∈ A, p a = true) : A.takeWhile p = A := by
  induction A with
  | nil => simp
  | cons a A ih =>
    rw [List.takeWhile_cons, if_pos (h a (by simp)),
      ih (fun x hx => h x (by simp [hx]))]

theorem dropWhile_all (p : Char → Bool) (A : List Char)
    (h : ∀ a ∈ A, p a = true) : A.dropWhile p = [] := by
  induction A with
  | nil => simp
  | cons a A ih =>
    rw [List.dropWhile_cons, if_pos (h a (by simp))]
    exact ih (fun x hx => h x (by simp [hx]))

/-- The maximal runs of consecutive digit characters of a string.  A
`YEAR_RE` match is exactly a run of length four in year shape
(`runTokens_iff_pos` below), which is the combinatorial backbone of the
`bump_years` analysis. -/
def digitRuns (s : List Char) : List (List Char) :=
  match s with
  | [] => []
  | c :: rest =>
    if c.isDigit then
      (c :: rest.takeWhile Char.isDigit) :: digitRuns (rest.dropWhile Char.isDigit)
    else digitRuns rest
termination_by s.length
decreasing_by
  all_goals simp only [List.length_cons]
  · exact Nat.lt_succ_of_le (length_dropWhile_le Char.isDigit _)
  · exact Nat.lt_succ_self _

theorem digitRuns_nil : digitRuns [] = [] := by rw [digitRuns]

theorem digitRuns_cons_digit (c : Char) (rest : List Char)
    (h : c.isDigit = true) :
    digitRuns (c :: rest) =
      (c :: rest.takeWhile Char.isDigit) :: digitRuns (rest.dropWhile Char.isDigit) := by
  rw [digitRuns, if_pos h]

theorem digitRuns_cons_nondigit (c : Char) (rest : List Char)
    (h : c.isDigit = false) : digitRuns (c :: rest) = digitRuns rest := by
  rw [digitRuns, if_neg (by simp [h])]

theorem digitRuns_append_sep (A0 B : List Char) (c : Char)
    (hc : c.isDigit = false) :
    digitRuns (A0 ++ c :: B) = digitRuns A0 ++ digitRuns B := by
  have H : ∀ n (A : List Char), A.length = n →
      digitRuns (A ++ c :: B) = digitRuns A ++ digitRuns B := by
    intro n
    induction n using Nat.strong_induction_on with
    | _ n IH =>
      intro A hA
      cases A with
      | nil => simp [digitRuns_cons_nondigit c B hc, digitRuns_nil]
      | cons a A' =>
        by_cases ha : a.isDigit = true
        · rw [List.cons_append, digitRuns_cons_digit a _ ha,
            digitRuns_cons_digit a A' ha,
            takeWhile_append_not Char.isDigit A' c B hc,
            dropWhile_append_not Char.isDigit A' c B hc]
          have hlt : (A'.dropWhile Char.isDigit).length < n := by
            have := length_dropWhile_le Char.isDigit A'
            simp only [List.length_cons] at hA
            omega
          rw [IH _ hlt _ rfl]
          simp
        · have ha' : a.isDigit = false := by simpa using ha
          rw [List.cons_append, digitRuns_cons_nondigit a _ ha',
            digitRuns_cons_nondigit a A' ha']
          have hlt : A'.length < n := by
            simp only [List.length_cons] at hA
            omega
          exact IH _ hlt _ rfl
  exact H A0.length A0 rfl

theorem digitRuns_all_nondigit (A : List Char)
    (h : ∀ a ∈ A, a.isDigit = false) : digitRuns A = [] := by
  induction A with
  | nil => exact digitRuns_nil
  | cons a A ih =>
    rw [digitRuns_cons_nondigit a A (h a (by simp))]
    exact ih (fun x hx => h x (by simp [hx]))

theorem digitRuns_all_digit (A : List Char) (hA : A ≠ [])
    (h : ∀ a ∈ A, a.isDigit = true) : digitRuns A = [A] := by
  cases A with
  | nil => exact absurd rfl hA
  | cons a A =>
    rw [digitRuns_cons_digit a A (h a (by simp)),
      takeWhile_all Char.isDigit A (fun x hx => h x (by simp [hx])),
      dropWhile_all Char.isDigit A (fun x hx => h x (by simp [hx])),
      digitRuns_nil]

/-- A run whose head is a digit prefix `D`: the first maximal run is
`D` extended by the digits at the head of `X`. -/
theorem digitRuns_digit_append (D X : List Char) (hD : D ≠ [])
    (h : ∀ a ∈ D, a.isDigit = true) :
    digitRuns (D ++ X) =
      (D ++ X.takeWhile Char.isDigit) :: digitRuns (X.dropWhile Char.isDigit) := by
  cases D with
  | nil => exact absurd rfl hD
  | cons d D' =>
    rw [List.cons_append, digitRuns_cons_digit d _ (h d (by simp)),
      takeWhile_append_all Char.isDigit D' X (fun x hx => h x (by simp [hx])),
      dropWhile_append_all Char.isDigit D' X (fun x hx => h x (by simp [hx]))]
    simp

/-- The value of a four-character digit run. -/
def val4 : List Char → Nat
  | [a, b, c, d] => 1000 * c2n a + 100 * c2n b + 10 * c2n c + c2n d
  | _ => 0

/-- Year shape of a four-character run. -/
def shape4 : List Char → Bool
  | [a, b, c, d] => yearShape a b c d
  | _ => false

/-- The `YEAR_RE` values contributed by one maximal digit run: a run
matches exactly when it has length four and year shape. -/
def runTok (r : List Char) : List Nat := if shape4 r then [val4 r] else []

/-- The `YEAR_RE` values of a string, via its maximal digit runs. -/
def runTokens (s : List Char) : List Nat := (digitRuns s).flatMap runTok

theorem runTokens_nil : runTokens [] = [] := by
  simp [runTokens, digitRuns_nil]

theorem runTokens_cons_nondigit (c : Char) (X : List Char)
    (h : c.isDigit = false) : runTokens (c :: X) = runTokens X := by
  simp [runTokens, digitRuns_cons_nondigit c X h]

theorem runTokens_append_sep (A B : List Char) (c : Char)
    (hc : c.isDigit = false) :
    runTokens (A ++ c :: B) = runTokens A ++ runTokens B := by
  simp [runTokens, digitRuns_append_sep A B c hc]

theorem runTokens_all_nondigit (A : List Char)
    (h : ∀ a ∈ A, a.isDigit = false) : runTokens A = [] := by
  simp [runTokens, digitRuns_all_nondigit A h]

theorem getD_append_right_add (A X : List Char) (m : Nat) (d : Char) :
    (A ++ X).getD (A.length + m) d = X.getD m d := by
  rw [List.getD_append_right A X d (A.length + m) (by omega)]
  congr 1
  omega

theorem valAt_shift (A X : List Char) (j : Nat) :
    valAt (A ++ X) (A.length + j) = valAt X j := by
  unfold valAt
  rw [getD_append_right_add,
    show A.length + j + 1 = A.length + (j + 1) by omega, getD_append_right_add,
    show A.length + j + 2 = A.length + (j + 2) by omega, getD_append_right_add,
    show A.length + j + 3 = A.length + (j + 3) by omega, getD_append_right_add]

theorem isYearTok_shift (A X : List Char) (j : Nat) (hj : 1 ≤ j) :
    (isYearTok (A ++ X) (A.length + j) = true ↔ isYearTok X j = true) := by
  have hg : ∀ m, (A ++ X).getD (A.length + j + m) ' ' = X.getD (j + m) ' ' := by
    intro m
    rw [show A.length + j + m = A.length + (j + m) by omega, getD_append_right_add]
  have hb : (A ++ X).getD (A.length + j - 1) ' ' = X.getD (j - 1) ' ' := by
    rw [show A.length + j - 1 = A.length + (j - 1) by omega, getD_append_right_add]
  have hval := valAt_shift A X j
  rw [isYearTok_iff, isYearTok_iff, List.length_append]
  constructor
  · rintro ⟨h1, h2, h3, h4, h5, h6⟩
    refine ⟨by omega, ?_, by rwa [hval] at h3, by rwa [hval] at h4, ?_, ?_⟩
    · intro m hm
      have := h2 m hm
      rwa [hg m] at this
    · rcases h5 with h | h
      · omega
      · exact Or.inr (by rwa [hb] at h)
    · rcases h6 with h | h
      · exact Or.inl (by omega)
      · exact Or.inr (by rwa [hg 4] at h)
  · rintro ⟨h1, h2, h3, h4, h5, h6⟩
    refine ⟨by omega, ?_, by rwa [hval], by rwa [hval], ?_, ?_⟩
    · intro m hm
      rw [hg m]
      exact h2 m hm
    · rcases h5 with h | h
      · omega
      · exact Or.inr (by rwa [hb])
    · rcases h6 with h | h
      · exact Or.inl (by omega)
      · exact Or.inr (by rwa [hg 4])

theorem isYearTok_zero_head (X : List Char) (h : isYearTok X 0 = true) :
    (X.getD 0 ' ').isDigit = true := by
  have := ((isYearTok_iff X 0).mp h).2.1 0 (by omega)
  simpa using this

theorem dropWhile_head_not (p : Char → Bool) (l x : List Char)
    (c : Char) (h : l.dropWhile p = c :: x) : p c = false := by
  induction l with
  | nil => simp at h
  | cons a t ih =>
    rw [List.dropWhile_cons] at h
    by_cases ha : p a = true
    · rw [if_pos ha] at h
      exact ih h
    · rw [if_neg ha] at h
      cases h
      simpa using ha

theorem dropWhile_digit_head (X : List Char) :
    ((X.dropWhile Char.isDigit).getD 0 ' ').isDigit = false := by
  cases hX : X.dropWhile Char.isDigit with
  | nil => decide
  | cons x xs =>
    rw [List.getD_cons_zero]
    exact dropWhile_head_not Char.isDigit X xs x hX

theorem isYearTok_nil (i : Nat) : isYearTok [] i = false := by
  simp [isYearTok]

theorem isYearTok_cons_nd_zero (c : Char) (X : List Char)
    (hc : c.isDigit = false) : isYearTok (c :: X) 0 = false := by
  cases hb : isYearTok (c :: X) 0 with
  | false => rfl
  | true =>
    have := isYearTok_zero_head (c :: X) hb
    rw [List.getD_cons_zero] at this
    rw [this] at hc
    exact absurd hc (by decide)

theorem shape4_length (r : List Char) (h : shape4 r = true) : r.length = 4 := by
  match r with
  | [] => simp [shape4] at h
  | [a] => simp [shape4] at h
  | [a, b] => simp [shape4] at h
  | [a, b, c] => simp [shape4] at h
  | [a, b, c, d] => rfl
  | a :: b :: c :: d :: e :: rest => simp [shape4] at h

theorem valAt_cons_shift (c : Char) (X : List Char) (j : Nat) :
    valAt (c :: X) (j + 1) = valAt X j := by
  have := valAt_shift [c] X j
  simpa [Nat.add_comm] using this

theorem isYearTok_cons_nondigit_shift (c : Char) (X : List Char)
    (hc : c.isDigit = false) (j : Nat) :
    (isYearTok (c :: X) (j + 1) = true ↔ isYearTok X j = true) := by
  cases j with
  | succ j' =>
    have := isYearTok_shift [c] X (j' + 1) (by omega)
    simpa [Nat.add_comm] using this
  | zero =>
    rw [isYearTok_iff, isYearTok_iff]
    have hg : ∀ m : Nat, (c :: X).getD (m + 1) ' ' = X.getD m ' ' := fun m =>
      List.getD_cons_succ
    constructor
    · rintro ⟨h1, h2, h3, h4, _, h6⟩
      refine ⟨?_, ?_, ?_, ?_, Or.inl rfl, ?_⟩
      · simp only [List.length_cons] at h1
        omega
      · intro m hm
        have h2' := h2 m hm
        rw [show (0 : Nat) + 1 + m = m + 1 by omega, hg m] at h2'
        rw [Nat.zero_add]
        exact h2'
      · rwa [valAt_cons_shift c X 0] at h3
      · rwa [valAt_cons_shift c X 0] at h4
      · rcases h6 with h | h
        · refine Or.inl ?_
          simp only [List.length_cons] at h
          omega
        · refine Or.inr ?_
          rw [show (0 : Nat) + 1 + 4 = 4 + 1 by omega, hg 4] at h
          rw [Nat.zero_add]
          exact h
    · rintro ⟨h1, h2, h3, h4, _, h6⟩
      refine ⟨?_, ?_, ?_, ?_, ?_, ?_⟩
      · simp only [List.length_cons]
        omega
      · intro m hm
        have h2' := h2 m hm
        rw [Nat.zero_add] at h2'
        rw [show (0 : Nat) + 1 + m = m + 1 by omega, hg m]
        exact h2'
      · rwa [valAt_cons_shift c X 0]
      · rwa [valAt_cons_shift c X 0]
      · refine Or.inr ?_
        rw [show (0 : Nat) + 1 - 1 = 0 by omega, List.getD_cons_zero]
        exact hc
      · rcases h6 with h | h
        · refine Or.inl ?_
          simp only [List.length_cons]
          omega
        · refine Or.inr ?_
          rw [show (0 : Nat) + 1 + 4 = 4 + 1 by omega, hg 4]
          rw [Nat.zero_add] at h
          exact h

theorem isYearTok_front (D X' : List Char) (hD : D ≠ [])
    (hall : ∀ a ∈ D, a.isDigit = true)
    (hX' : (X'.getD 0 ' ').isDigit = false)
    (i : Nat) (hi : i ≤ D.length) (h : isYearTok (D ++ X') i = true) :
    i = 0 ∧ D.length = 4 := by
  obtain ⟨h1, h2, h3, h4, h5, h6⟩ := (isYearTok_iff (D ++ X') i).mp h
  have hD1 : 1 ≤ D.length := by
    cases D with
    | nil => exact absurd rfl hD
    | cons a t => simp
  have hi0 : i = 0 := by
    rcases h5 with h0 | hnd
    · exact h0
    · exfalso
      have hlt : i - 1 < D.length := by omega
      have : (D ++ X').getD (i - 1) ' ' = D.getD (i - 1) ' ' :=
        List.getD_append D X' ' ' (i - 1) hlt
      rw [this] at hnd
      have hmem : D.getD (i - 1) ' ' ∈ D := by
        rw [List.getD_eq_getElem D ' ' hlt]
        exact List.getElem_mem hlt
      rw [hall _ hmem] at hnd
      exact absurd hnd (by decide)
  subst hi0
  refine ⟨rfl, ?_⟩
  by_cases hge : 5 ≤ D.length
  · exfalso
    rcases h6 with hend | hnd
    · rw [List.length_append] at hend
      omega
    · have : (D ++ X').getD (0 + 4) ' ' = D.getD 4 ' ' :=
        List.getD_append D X' ' ' 4 (by omega)
      rw [this] at hnd
      have hmem : D.getD 4 ' ' ∈ D := by
        rw [List.getD_eq_getElem D ' ' (by omega)]
        exact List.getElem_mem (by omega)
      rw [hall _ hmem] at hnd
      exact absurd hnd (by decide)
  · by_cases hle : D.length ≤ 3
    · exfalso
      have := h2 D.length (by omega)
      rw [show (0 : Nat) + D.length = D.length + 0 by omega,
        getD_append_right_add, hX'] at this
      exact absurd this (by decide)
    · omega

theorem isYearTok_at_run (D X' : List Char) (h4 : D.length = 4)
    (hall : ∀ a ∈ D, a.isDigit = true)
    (hX' : (X'.getD 0 ' ').isDigit = false) :
    (isYearTok (D ++ X') 0 = true ↔ shape4 D = true) ∧
      valAt (D ++ X') 0 = val4 D := by
  match D, h4 with
  | [a, b, c, d], _ =>
    have e0 : (([a, b, c, d] ++ X').getD 0 ' ') = a := rfl
    have e1 : (([a, b, c, d] ++ X').getD 1 ' ') = b := rfl
    have e2 : (([a, b, c, d] ++ X').getD 2 ' ') = c := rfl
    have e3 : (([a, b, c, d] ++ X').getD 3 ' ') = d := rfl
    have e4 : (([a, b, c, d] ++ X').getD 4 ' ') = X'.getD 0 ' ' := by
      simp
    constructor
    · unfold isYearTok
      rw [show (0 : Nat) + 1 = 1 by rfl, show (0 : Nat) + 2 = 2 by rfl,
        show (0 : Nat) + 3 = 3 by rfl, show (0 : Nat) + 4 = 4 by rfl,
        e0, e1, e2, e3, e4]
      simp only [List.length_append, List.length_cons, List.length_nil, hX']
      simp [shape4]
    · unfold valAt
      rw [show (0 : Nat) + 1 = 1 by rfl, show (0 : Nat) + 2 = 2 by rfl,
        show (0 : Nat) + 3 = 3 by rfl, e0, e1, e2, e3]
      rfl

/-- The maximal-run reading of `YEAR_RE` agrees with the positional
one: a value is contributed by some digit run of length four in year
shape exactly when the regex matches somewhere with that value. -/
theorem runTokens_iff_pos (s0 : List Char) (t : Nat) :
    t ∈ runTokens s0 ↔ ∃ i, isYearTok s0 i = true ∧ valAt s0 i = t := by
  have H : ∀ n (s : List Char), s.length = n →
      (t ∈ runTokens s ↔ ∃ i, isYearTok s i = true ∧ valAt s i = t) := by
    intro n
    induction n using Nat.strong_induction_on with
    | _ n IH =>
      intro s hs
      cases s with
      | nil =>
        simp [runTokens_nil, isYearTok_nil]
      | cons c X =>
        by_cases hc : c.isDigit = true
        · have hsplit :
              c :: X = (c :: X.takeWhile Char.isDigit) ++ X.dropWhile Char.isDigit := by
            rw [List.cons_append, List.takeWhile_append_dropWhile]
          have hallD : ∀ a ∈ c :: X.takeWhile Char.isDigit, a.isDigit = true := by
            intro a ha
            rcases List.mem_cons.mp ha with rfl | ha'
            · exact hc
            · exact List.mem_takeWhile_imp ha'
          have hDne : (c :: X.takeWhile Char.isDigit) ≠ [] := by simp
          have hX'h : (((X.dropWhile Char.isDigit).getD 0 ' ').isDigit) = false :=
            dropWhile_digit_head X
          have hlen' : (X.dropWhile Char.isDigit).length < n := by
            have := length_dropWhile_le Char.isDigit X
            simp only [List.length_cons] at hs
            omega
          have hrt : runTokens (c :: X) =
              runTok (c :: X.takeWhile Char.isDigit) ++
                runTokens (X.dropWhile Char.isDigit) := by
            unfold runTokens
            rw [digitRuns_cons_digit c X hc]
            simp
          rw [hrt]
          constructor
          · intro hmem
            rcases List.mem_append.mp hmem with hm | hm
            · unfold runTok at hm
              by_cases hsh : shape4 (c :: X.takeWhile Char.isDigit) = true
              · rw [if_pos hsh] at hm
                have ht : val4 (c :: X.takeWhile Char.isDigit) = t := by
                  have := List.mem_singleton.mp hm
                  exact this.symm
                have h4 := shape4_length _ hsh
                have hiff := isYearTok_at_run (c :: X.takeWhile Char.isDigit)
                  (X.dropWhile Char.isDigit) h4 hallD hX'h
                refine ⟨0, ?_, ?_⟩
                · rw [hsplit]
                  exact hiff.1.mpr hsh
                · rw [hsplit, hiff.2]
                  exact ht
              · rw [if_neg hsh] at hm
                simp at hm
            · obtain ⟨j, hj, hjv⟩ := (IH _ hlen' _ rfl).mp hm
              have hj1 : 1 ≤ j := by
                rcases Nat.eq_zero_or_pos j with rfl | h1
                · exfalso
                  have := isYearTok_zero_head _ hj
                  rw [this] at hX'h
                  exact absurd hX'h (by decide)
                · exact h1
              refine ⟨(c :: X.takeWhile Char.isDigit).length + j, ?_, ?_⟩
              · rw [hsplit]
                exact (isYearTok_shift _ _ j hj1).mpr hj
              · rw [hsplit, valAt_shift]
                exact hjv
          · rintro ⟨i, hi, hiv⟩
            rw [hsplit] at hi hiv
            by_cases hile : i ≤ (c :: X.takeWhile Char.isDigit).length
            · obtain ⟨rfl, h4⟩ :=
                isYearTok_front _ _ hDne hallD hX'h i hile hi
              have hiff := isYearTok_at_run (c :: X.takeWhile Char.isDigit)
                (X.dropWhile Char.isDigit) h4 hallD hX'h
              have hsh : shape4 (c :: X.takeWhile Char.isDigit) = true :=
                hiff.1.mp hi
              refine List.mem_append.mpr (Or.inl ?_)
              unfold runTok
              rw [if_pos hsh]
              rw [hiff.2] at hiv
              simp [hiv]
            · have hj1 : 1 ≤ i - (c :: X.takeWhile Char.isDigit).length := by omega
              have heq :
                  i = (c :: X.takeWhile Char.isDigit).length +
                    (i - (c :: X.takeWhile Char.isDigit).length) := by omega
              rw [heq] at hi hiv
              rw [valAt_shift] at hiv
              refine List.mem_append.mpr (Or.inr ?_)
              exact (IH _ hlen' _ rfl).mpr
                ⟨_, (isYearTok_shift _ _ _ hj1).mp hi, hiv⟩
        · have hc' : c.isDigit = false := by simpa using hc
          rw [runTokens_cons_nondigit c X hc']
          have hlen : X.length < n := by
            simp only [List.length_cons] at hs
            omega
          rw [IH _ hlen X rfl]
          constructor
          · rintro ⟨j, hj, hjv⟩
            refine ⟨j + 1, (isYearTok_cons_nondigit_shift c X hc' j).mpr hj, ?_⟩
            rw [valAt_cons_shift]
            exact hjv
          · rintro ⟨i, hi, hiv⟩
            cases i with
            | zero =>
              rw [isYearTok_cons_nd_zero c X hc'] at hi
              exact absurd hi (by decide)
            | succ j =>
              refine ⟨j, (isYearTok_cons_nondigit_shift c X hc' j).mp hi, ?_⟩
              rw [valAt_cons_shift] at hiv
              exact hiv
  exact H s0.length s0 rfl

theorem toChars4_length (n : Nat) : (toChars4 n).length = 4 := rfl

theorem toChars4_ne_nil (n : Nat) : toChars4 n ≠ [] := by simp [toChars4]

theorem toChars4_all_digit (n : Nat) : ∀ x ∈ toChars4 n, x.isDigit = true := by
  intro x hx
  have hmem :
      x = Char.ofNat (48 + n / 1000 % 10) ∨ x = Char.ofNat (48 + n / 100 % 10) ∨
        x = Char.ofNat (48 + n / 10 % 10) ∨ x = Char.ofNat (48 + n % 10) := by
    simpa [toChars4] using hx
  have hdig : ∀ d : Nat, d < 10 → (Char.ofNat (48 + d)).isDigit = true := by
    intro d hd
    rw [isDigit_iff_toNat, ofNat48_toNat d hd]
    omega
  rcases hmem with rfl | rfl | rfl | rfl
  · exact hdig _ (Nat.mod_lt _ (by omega))
  · exact hdig _ (Nat.mod_lt _ (by omega))
  · exact hdig _ (Nat.mod_lt _ (by omega))
  · exact hdig _ (Nat.mod_lt _ (by omega))

theorem c2n_ofNat48 (d : Nat) (hd : d < 10) : c2n (Char.ofNat (48 + d)) = d := by
  unfold c2n
  rw [ofNat48_toNat d hd]
  omega

theorem val4_toChars4 (n : Nat) (h : n ≤ 9999) : val4 (toChars4 n) = n := by
  show 1000 * c2n (Char.ofNat (48 + n / 1000 % 10)) +
      100 * c2n (Char.ofNat (48 + n / 100 % 10)) +
      10 * c2n (Char.ofNat (48 + n / 10 % 10)) +
      c2n (Char.ofNat (48 + n % 10)) = n
  rw [c2n_ofNat48 _ (Nat.mod_lt _ (by omega)), c2n_ofNat48 _ (Nat.mod_lt _ (by omega)),
    c2n_ofNat48 _ (Nat.mod_lt _ (by omega)), c2n_ofNat48 _ (Nat.mod_lt _ (by omega))]
  omega

theorem digit_char_eq (a : Char) (h : a.isDigit = true) :
    Char.ofNat (48 + c2n a) = a := by
  have hb := (isDigit_iff_toNat a).mp h
  have : 48 + c2n a = a.toNat := by
    unfold c2n
    omega
  rw [this, Char.ofNat_toNat]

/-- A four-digit run is determined by its value. -/
theorem val4_inj_digit (A : List Char) (hA : A.length = 4)
    (hall : ∀ a ∈ A, a.isDigit = true) (n : Nat) (hn1 : 1000 ≤ n)
    (hn2 : n ≤ 9999) (hv : val4 A = n) : A = toChars4 n := by
  match A, hA with
  | [a, b, c, d], _ =>
    have ha := hall a (by simp)
    have hb := hall b (by simp)
    have hc := hall c (by simp)
    have hd := hall d (by simp)
    have ha9 := c2n_le_of_isDigit a ha
    have hb9 := c2n_le_of_isDigit b hb
    have hc9 := c2n_le_of_isDigit c hc
    have hd9 := c2n_le_of_isDigit d hd
    have hv' : 1000 * c2n a + 100 * c2n b + 10 * c2n c + c2n d = n := hv
    have e1 : c2n a = n / 1000 % 10 := by omega
    have e2 : c2n b = n / 100 % 10 := by omega
    have e3 : c2n c = n / 10 % 10 := by omega
    have e4 : c2n d = n % 10 := by omega
    show [a, b, c, d] = [Char.ofNat (48 + n / 1000 % 10), Char.ofNat (48 + n / 100 % 10),
      Char.ofNat (48 + n / 10 % 10), Char.ofNat (48 + n % 10)]
    rw [← e1, ← e2, ← e3, ← e4, digit_char_eq a ha, digit_char_eq b hb,
      digit_char_eq c hc, digit_char_eq d hd]

theorem isPrefixOf_append_sep (k : List Char)
    (hk : ∀ x ∈ k, x.isDigit = true) (A : List Char) (c : Char)
    (hc : c.isDigit = false) (B : List Char) :
    k.isPrefixOf (A ++ c :: B) = k.isPrefixOf A := by
  induction k generalizing A with
  | nil => simp [List.isPrefixOf]
  | cons kh kt ih =>
    cases A with
    | nil =>
      have hne : (kh == c) = false := by
        by_cases h : kh = c
        · subst h
          rw [hk kh (by simp)] at hc
          exact absurd hc (by decide)
        · simpa using h
      simp [List.isPrefixOf, hne]
    | cons a A' =>
      show (kh == a && kt.isPrefixOf (A' ++ c :: B)) =
        (kh == a && kt.isPrefixOf A')
      rw [ih (fun x hx => hk x (by simp [hx])) A']

theorem isPrefixOf_nondigit_head (k : List Char)
    (hk : ∀ x ∈ k, x.isDigit = true) (hkne : k ≠ []) (c : Char)
    (hc : c.isDigit = false) (B : List Char) :
    k.isPrefixOf (c :: B) = false := by
  cases k with
  | nil => exact absurd rfl hkne
  | cons kh kt =>
    have hne : (kh == c) = false := by
      by_cases h : kh = c
      · subst h
        rw [hk kh (by simp)] at hc
        exact absurd hc (by decide)
      · simpa using h
    simp [List.isPrefixOf, hne]

theorem pyReplaceAux_cons_nondigit (k v : List Char)
    (hk : ∀ x ∈ k, x.isDigit = true) (hkne : k ≠ []) (c : Char)
    (hc : c.isDigit = false) (s : List Char) :
    pyReplaceAux k v (c :: s) = c :: pyReplaceAux k v s := by
  rw [pyReplaceAux_cons]
  rw [if_neg]
  rintro ⟨-, hpre⟩
  rw [isPrefixOf_nondigit_head k hk hkne c hc s] at hpre
  exact absurd hpre (by decide)

theorem pyReplaceAux_append_sep (k v : List Char)
    (hk : ∀ x ∈ k, x.isDigit = true) (hkne : k ≠ []) (A0 : List Char)
    (c : Char) (hc : c.isDigit = false) (B : List Char) :
    pyReplaceAux k v (A0 ++ c :: B) =
      pyReplaceAux k v A0 ++ c :: pyReplaceAux k v B := by
  have H : ∀ n (A : List Char), A.length = n →
      pyReplaceAux k v (A ++ c :: B) =
        pyReplaceAux k v A ++ c :: pyReplaceAux k v B := by
    intro n
    induction n using Nat.strong_induction_on with
    | _ n IH =>
      intro A hA
      cases A with
      | nil =>
        rw [List.nil_append, pyReplaceAux_nil, List.nil_append,
          pyReplaceAux_cons_nondigit k v hk hkne c hc B]
      | cons a A' =>
        have hsep := isPrefixOf_append_sep k hk (a :: A') c hc B
        by_cases hpre : k.isPrefixOf (a :: A') = true
        · have hpre' : k.isPrefixOf (a :: A' ++ c :: B) = true := by
            rw [List.cons_append, ← List.cons_append, hsep]
            exact hpre
          obtain ⟨rest, hrest⟩ := (List.isPrefixOf_iff_prefix.mp hpre)
          rw [List.cons_append, pyReplaceAux_cons, if_pos ⟨hkne, by
            rw [← List.cons_append]
            exact hpre'⟩]
          conv_rhs => rw [pyReplaceAux_cons, if_pos ⟨hkne, hpre⟩]
          have hdrop1 : (a :: (A' ++ c :: B)).drop k.length = rest ++ c :: B := by
            rw [show a :: (A' ++ c :: B) = (a :: A') ++ c :: B by simp, ← hrest,
              List.append_assoc, List.drop_left]
          have hdrop2 : (a :: A').drop k.length = rest := by
            rw [← hrest, List.drop_left]
          rw [hdrop1, hdrop2]
          have hklen : 1 ≤ k.length := by
            cases k with
            | nil => exact absurd rfl hkne
            | cons x t => simp
          have hrlen : rest.length < n := by
            have : (a :: A').length = k.length + rest.length := by
              rw [← hrest, List.length_append]
            simp only [List.length_cons] at this hA
            omega
          rw [IH rest.length hrlen rest rfl, List.append_assoc]
        · have hpre2 : ¬(k ≠ [] ∧ k.isPrefixOf (a :: (A' ++ c :: B)) = true) := by
            rintro ⟨-, h⟩
            rw [show a :: (A' ++ c :: B) = (a :: A') ++ c :: B by simp, hsep] at h
            exact hpre h
          have hpre3 : ¬(k ≠ [] ∧ k.isPrefixOf (a :: A') = true) := by
            rintro ⟨-, h⟩
            exact hpre h
          rw [List.cons_append, pyReplaceAux_cons, if_neg hpre2]
          conv_rhs => rw [pyReplaceAux_cons, if_neg hpre3]
          have hlt : A'.length < n := by
            simp only [List.length_cons] at hA
            omega
          rw [IH A'.length hlt A' rfl]
          simp
  exact H A0.length A0 rfl

theorem pyReplaceAux_short (k v l : List Char) (hl : l.length < k.length) :
    pyReplaceAux k v l = l := by
  induction l with
  | nil => exact pyReplaceAux_nil k v
  | cons c t ih =>
    rw [pyReplaceAux_cons, if_neg]
    · rw [ih (by simp only [List.length_cons] at hl ⊢; omega)]
    · rintro ⟨-, hp⟩
      have := (List.isPrefixOf_iff_prefix.mp hp).length_le
      omega

theorem pyReplaceAux_all_digit (k v : List Char) (hkne : k ≠ [])
    (hlen : v.length = k.length) (hv : ∀ x ∈ v, x.isDigit = true)
    (A0 : List Char) (hA0 : ∀ x ∈ A0, x.isDigit = true) :
    (∀ x ∈ pyReplaceAux k v A0, x.isDigit = true) ∧
      (pyReplaceAux k v A0).length = A0.length := by
  have H : ∀ n (A : List Char), A.length = n → (∀ x ∈ A, x.isDigit = true) →
      (∀ x ∈ pyReplaceAux k v A, x.isDigit = true) ∧
        (pyReplaceAux k v A).length = A.length := by
    intro n
    induction n using Nat.strong_induction_on with
    | _ n IH =>
      intro A hA hAd
      cases A with
      | nil => simp [pyReplaceAux_nil]
      | cons a A' =>
        rw [pyReplaceAux_cons]
        by_cases hcond : k ≠ [] ∧ k.isPrefixOf (a :: A') = true
        · rw [if_pos hcond]
          have hk1 : 1 ≤ k.length := by
            cases k with
            | nil => exact absurd rfl hkne
            | cons x t => simp
          have hkle : k.length ≤ (a :: A').length :=
            (List.isPrefixOf_iff_prefix.mp hcond.2).length_le
          have hdl : ((a :: A').drop k.length).length < n := by
            simp only [List.length_drop, List.length_cons] at *
            omega
          have hdd : ∀ x ∈ (a :: A').drop k.length, x.isDigit = true :=
            fun x hx => hAd x (List.mem_of_mem_drop hx)
          obtain ⟨ih1, ih2⟩ := IH _ hdl _ rfl hdd
          constructor
          · intro x hx
            rcases List.mem_append.mp hx with h | h
            · exact hv x h
            · exact ih1 x h
          · simp only [List.length_append, ih2, List.length_drop]
            simp only [List.length_cons] at *
            omega
        · rw [if_neg hcond]
          have hlt : A'.length < n := by
            simp only [List.length_cons] at hA
            omega
          obtain ⟨ih1, ih2⟩ := IH _ hlt _ rfl (fun x hx => hAd x (by simp [hx]))
          constructor
          · intro x hx
            rcases List.mem_cons.mp hx with rfl | h
            · exact hAd x (by simp)
            · exact ih1 x h
          · simp [ih2]
  exact H A0.length A0 rfl hA0

theorem pyReplaceAux_len4 (k v A : List Char) (hk4 : k.length = 4)
    (hA4 : A.length = 4) : pyReplaceAux k v A = if A = k then v else A := by
  match A, hA4 with
  | [a, b, c, d], _ =>
    by_cases he : [a, b, c, d] = k
    · rw [if_pos he]
      have hc1 : k ≠ [] := by rw [← he]; simp
      have hc2 : k.isPrefixOf [a, b, c, d] = true := by
        conv_lhs => rw [← he]
        exact List.isPrefixOf_iff_prefix.mpr (List.prefix_refl _)
      rw [pyReplaceAux_cons, if_pos ⟨hc1, hc2⟩, hk4]
      rw [show List.drop 4 [a, b, c, d] = ([] : List Char) from rfl,
        pyReplaceAux_nil, List.append_nil]
    · rw [if_neg he]
      have hnp : ¬(k ≠ [] ∧ k.isPrefixOf [a, b, c, d] = true) := by
        rintro ⟨-, hp⟩
        exact he ((List.isPrefixOf_iff_prefix.mp hp).eq_of_length
          (by simp [hk4])).symm
      rw [pyReplaceAux_cons, if_neg hnp,
        pyReplaceAux_short k v [b, c, d] (by simp; omega)]

theorem runTokens_allDigit (A : List Char) (hne : A ≠ [])
    (hall : ∀ a ∈ A, a.isDigit = true) : runTokens A = runTok A := by
  unfold runTokens
  rw [digitRuns_all_digit A hne hall]
  simp

theorem mem_runTok (t : Nat) (r : List Char) :
    t ∈ runTok r ↔ shape4 r = true ∧ t = val4 r := by
  unfold runTok
  by_cases h : shape4 r = true
  · simp [h]
  · simp [h]

/-- The effect of one `q.replace(str(y), str(to_year))` on an all-digit
run: a length-four run equal to `str(y)` becomes `str(to_year)`, any
other run keeps its length and digits, so the surviving `YEAR_RE`
values are the old ones other than `y`, plus possibly `to_year`. -/
theorem replace_allDigit_tokens (y Y : Nat) (hy1 : 1000 ≤ y) (hy2 : y ≤ 9999)
    (hY2 : Y ≤ 9999) (D : List Char) (hDne : D ≠ [])
    (hall : ∀ a ∈ D, a.isDigit = true) :
    ∀ t ∈ runTokens (pyReplaceAux (toChars4 y) (toChars4 Y) D),
      t = Y ∨ (t ∈ runTokens D ∧ t ≠ y) := by
  intro t ht
  by_cases h4 : D.length = 4
  · rw [pyReplaceAux_len4 _ _ D (toChars4_length y) h4] at ht
    by_cases he : D = toChars4 y
    · rw [if_pos he] at ht
      left
      rw [runTokens_allDigit _ (toChars4_ne_nil Y) (toChars4_all_digit Y)] at ht
      obtain ⟨-, htv⟩ := (mem_runTok t _).mp ht
      rw [htv, val4_toChars4 Y hY2]
    · rw [if_neg he] at ht
      right
      refine ⟨ht, ?_⟩
      rintro rfl
      rw [runTokens_allDigit D hDne hall] at ht
      obtain ⟨-, htv⟩ := (mem_runTok _ D).mp ht
      exact he (val4_inj_digit D h4 hall _ hy1 hy2 htv.symm)
  · exfalso
    obtain ⟨hd, hl⟩ := pyReplaceAux_all_digit (toChars4 y) (toChars4 Y)
      (toChars4_ne_nil y) (by rw [toChars4_length, toChars4_length])
      (toChars4_all_digit Y) D hall
    have hne' : pyReplaceAux (toChars4 y) (toChars4 Y) D ≠ [] := by
      intro h0
      rw [h0] at hl
      simp at hl
      exact hDne (List.eq_nil_of_length_eq_zero hl.symm)
    rw [runTokens_allDigit _ hne' hd] at ht
    obtain ⟨hsh, -⟩ := (mem_runTok t _).mp ht
    have := shape4_length _ hsh
    rw [hl] at this
    exact h4 this

/-- One replacement pass over an arbitrary string: every surviving
`YEAR_RE` value is `to_year` or an old value different from `y`. -/
theorem step_runTokens (y Y : Nat) (hy1 : 1000 ≤ y) (hy2 : y ≤ 9999)
    (hY2 : Y ≤ 9999) (s0 : List Char) :
    ∀ t ∈ runTokens (pyReplaceAux (toChars4 y) (toChars4 Y) s0),
      t = Y ∨ (t ∈ runTokens s0 ∧ t ≠ y) := by
  have H : ∀ n (s : List Char), s.length = n →
      ∀ t ∈ runTokens (pyReplaceAux (toChars4 y) (toChars4 Y) s),
        t = Y ∨ (t ∈ runTokens s ∧ t ≠ y) := by
    intro n
    induction n using Nat.strong_induction_on with
    | _ n IH =>
      intro s hs
      cases s with
      | nil =>
        rw [pyReplaceAux_nil, runTokens_nil]
        simp
      | cons c X =>
        by_cases hc : c.isDigit = true
        · cases hX' : X.dropWhile Char.isDigit with
          | nil =>
            have htw : X.takeWhile Char.isDigit = X := by
              have := List.takeWhile_append_dropWhile (p := Char.isDigit) (l := X)
              rw [hX', List.append_nil] at this
              exact this
            have hallX : ∀ a ∈ c :: X, a.isDigit = true := by
              intro a ha
              rcases List.mem_cons.mp ha with rfl | ha'
              · exact hc
              · rw [← htw] at ha'
                exact List.mem_takeWhile_imp ha'
            exact replace_allDigit_tokens y Y hy1 hy2 hY2 (c :: X) (by simp) hallX
          | cons x X'' =>
            have hx : x.isDigit = false := dropWhile_head_not Char.isDigit X X'' x hX'
            have hsplit : c :: X = (c :: X.takeWhile Char.isDigit) ++ x :: X'' := by
              rw [List.cons_append]
              congr 1
              rw [← hX', List.takeWhile_append_dropWhile]
            have hallD : ∀ a ∈ c :: X.takeWhile Char.isDigit, a.isDigit = true := by
              intro a ha
              rcases List.mem_cons.mp ha with rfl | ha'
              · exact hc
              · exact List.mem_takeWhile_imp ha'
            have hX''len : X''.length < n := by
              have h1 := length_dropWhile_le Char.isDigit X
              rw [hX'] at h1
              simp only [List.length_cons] at h1 hs
              omega
            intro t ht
            rw [hsplit, pyReplaceAux_append_sep _ _ (toChars4_all_digit y)
              (toChars4_ne_nil y) _ x hx, runTokens_append_sep _ _ x hx] at ht
            rw [hsplit, runTokens_append_sep _ _ x hx]
            rcases List.mem_append.mp ht with hm | hm
            · rcases replace_allDigit_tokens y Y hy1 hy2 hY2 _ (by simp) hallD
                t hm with h | ⟨h1, h2⟩
              · exact Or.inl h
              · exact Or.inr ⟨List.mem_append.mpr (Or.inl h1), h2⟩
            · rcases IH _ hX''len X'' rfl t hm with h | ⟨h1, h2⟩
              · exact Or.inl h
              · exact Or.inr ⟨List.mem_append.mpr (Or.inr h1), h2⟩
        · have hc' : c.isDigit = false := by simpa using hc
          intro t ht
          rw [pyReplaceAux_cons_nondigit _ _ (toChars4_all_digit y)
            (toChars4_ne_nil y) c hc', runTokens_cons_nondigit c _ hc'] at ht
          rw [runTokens_cons_nondigit c X hc']
          exact IH X.length (by simp only [List.length_cons] at hs; omega) X rfl t ht
  exact H s0.length s0 rfl

/-- The whole `for y in years:` replacement loop: afterwards every
`YEAR_RE` value is `to_year` or an original value not in the list. -/
theorem fold_runTokens (Y : Nat) (hY2 : Y ≤ 9999) (L : List Nat)
    (hL : ∀ y ∈ L, 1000 ≤ y ∧ y ≤ 9999) (s : List Char) :
    ∀ t ∈ runTokens
        (L.foldl (fun q y => pyReplaceAux (toChars4 y) (toChars4 Y) q) s),
      t = Y ∨ (t ∈ runTokens s ∧ t ∉ L) := by
  induction L generalizing s with
  | nil =>
    intro t ht
    exact Or.inr ⟨ht, by simp⟩
  | cons y L' ih =>
    intro t ht
    have hy := hL y (by simp)
    have hL' : ∀ z ∈ L', 1000 ≤ z ∧ z ≤ 9999 := fun z hz => hL z (by simp [hz])
    rcases ih hL' (pyReplaceAux (toChars4 y) (toChars4 Y) s) t ht with h | ⟨h1, h2⟩
    · exact Or.inl h
    · rcases step_runTokens y Y hy.1 hy.2 hY2 s t h1 with h | ⟨h3, h4⟩
      · exact Or.inl h
      · refine Or.inr ⟨h3, ?_⟩
        intro hmem
        rcases List.mem_cons.mp hmem with rfl | hm
        · exact h4 rfl
        · exact h2 hm

theorem pyIsSpace_nondigit (c : Char) (h : pyIsSpace c = true) :
    c.isDigit = false := by
  simp only [pyIsSpace, Bool.or_eq_true, decide_eq_true_eq] at h
  rcases h with ((((rfl | rfl) | rfl) | rfl) | rfl) | rfl <;> decide

theorem runTokens_all_nondigit_nil (B : List Char)
    (hB : ∀ b ∈ B, b.isDigit = false) : runTokens B = [] :=
  runTokens_all_nondigit B hB

theorem runTokens_append_nondigit (A B : List Char)
    (hB : ∀ b ∈ B, b.isDigit = false) : runTokens (A ++ B) = runTokens A := by
  cases B with
  | nil => simp
  | cons c B' =>
    rw [runTokens_append_sep A B' c (hB c (by simp)),
      runTokens_all_nondigit B' (fun b hb => hB b (by simp [hb])),
      List.append_nil]

theorem runTokens_dropWhile_space (l : List Char) :
    runTokens (l.dropWhile pyIsSpace) = runTokens l := by
  induction l with
  | nil => simp
  | cons c t ih =>
    rw [List.dropWhile_cons]
    by_cases h : pyIsSpace c = true
    · rw [if_pos h, ih, runTokens_cons_nondigit c t (pyIsSpace_nondigit c h)]
    · rw [if_neg (by simpa using h)]

theorem runTokens_pyStrip (l : List Char) :
    runTokens (pyStrip l) = runTokens l := by
  unfold pyStrip
  rw [← runTokens_dropWhile_space l]
  have hdec : l.dropWhile pyIsSpace =
      ((l.dropWhile pyIsSpace).reverse.dropWhile pyIsSpace).reverse ++
        ((l.dropWhile pyIsSpace).reverse.takeWhile pyIsSpace).reverse := by
    rw [← List.reverse_append, List.takeWhile_append_dropWhile, List.reverse_reverse]
  conv_rhs => rw [hdec]
  rw [runTokens_append_nondigit]
  intro b hb
  rw [List.mem_reverse] at hb
  exact pyIsSpace_nondigit b (List.mem_takeWhile_imp hb)

theorem splitLines_cons_newline (rest : List Char) :
    splitLines ('\n' :: rest) = [] :: splitLines rest := rfl

theorem splitLines_cons_other_nil (c : Char) (rest : List Char)
    (hc : ¬c = '\n') (h : splitLines rest = []) :
    splitLines (c :: rest) = [[c]] := by
  unfold splitLines
  rw [if_neg hc, h]

theorem splitLines_cons_other_cons (c : Char) (rest l0 : List Char)
    (ls0 : List (List Char)) (hc : ¬c = '\n')
    (h : splitLines rest = l0 :: ls0) :
    splitLines (c :: rest) = (c :: l0) :: ls0 := by
  unfold splitLines
  rw [if_neg hc, h]

theorem splitLines_eq_nil (s : List Char) : splitLines s = [] ↔ s = [] := by
  constructor
  · intro h
    cases s with
    | nil => rfl
    | cons c rest =>
      by_cases hc : c = '\n'
      · subst hc
        rw [splitLines_cons_newline rest] at h
        simp at h
      · rcases hsp : splitLines rest with _ | ⟨l, ls⟩
        · rw [splitLines_cons_other_nil c rest hc hsp] at h
          simp at h
        · rw [splitLines_cons_other_cons c rest l ls hc hsp] at h
          simp at h
  · rintro rfl
    rfl

theorem splitLines_structure (s l : List Char) (ls : List (List Char))
    (h : splitLines s = l :: ls) :
    (s = l ∧ ls = []) ∨ ∃ r, s = l ++ '\n' :: r ∧ splitLines r = ls := by
  induction s generalizing l ls with
  | nil => simp [splitLines] at h
  | cons c rest ih =>
    by_cases hc : c = '\n'
    · subst hc
      rw [splitLines_cons_newline rest] at h
      cases h
      exact Or.inr ⟨rest, rfl, rfl⟩
    · rcases hsp : splitLines rest with _ | ⟨l0, ls0⟩
      · rw [splitLines_cons_other_nil c rest hc hsp] at h
        cases h
        have : rest = [] := (splitLines_eq_nil rest).mp hsp
        subst this
        exact Or.inl ⟨rfl, rfl⟩
      · rw [splitLines_cons_other_cons c rest l0 ls0 hc hsp] at h
        cases h
        rcases ih _ _ hsp with ⟨rfl, rfl⟩ | ⟨r, hr, hsr⟩
        · exact Or.inl ⟨rfl, rfl⟩
        · exact Or.inr ⟨r, by rw [hr]; rfl, hsr⟩

theorem runTokens_splitLines_sub (s0 : List Char) :
    ∀ l ∈ splitLines s0, ∀ t ∈ runTokens l, t ∈ runTokens s0 := by
  have H : ∀ n (s : List Char), s.length = n →
      ∀ l ∈ splitLines s, ∀ t ∈ runTokens l, t ∈ runTokens s := by
    intro n
    induction n using Nat.strong_induction_on with
    | _ n IH =>
      intro s hs l hl t ht
      rcases hsp : splitLines s with _ | ⟨L, Ls⟩
      · rw [hsp] at hl
        simp at hl
      · rw [hsp] at hl
        rcases splitLines_structure s L Ls hsp with ⟨rfl, rfl⟩ | ⟨r, rfl, hsr⟩
        · rcases List.mem_cons.mp hl with rfl | hl'
          · exact ht
          · simp at hl'
        · rw [runTokens_append_sep L r '\n' (by decide)]
          rcases List.mem_cons.mp hl with rfl | hl'
          · exact List.mem_append.mpr (Or.inl ht)
          · refine List.mem_append.mpr (Or.inr ?_)
            have hrlen : r.length < n := by
              rw [← hs]
              simp only [List.length_append, List.length_cons]
              omega
            rw [← hsr] at hl'
            exact IH r.length hrlen r rfl l hl' t ht
  exact H s0.length s0 rfl

theorem mem_yearTokens (s : List Char) (t : Nat) :
    t ∈ yearTokens s ↔ ∃ i, isYearTok s i = true ∧ valAt s i = t := by
  unfold yearTokens
  rw [List.mem_filterMap]
  constructor
  · rintro ⟨i, -, hi⟩
    by_cases h : isYearTok s i = true
    · rw [if_pos h] at hi
      exact ⟨i, h, by simpa using hi⟩
    · rw [if_neg h] at hi
      simp at hi
  · rintro ⟨i, hi, hv⟩
    refine ⟨i, ?_, ?_⟩
    · rw [List.mem_range]
      have := ((isYearTok_iff s i).mp hi).1
      omega
    · rw [if_pos hi, hv]

theorem mem_yearTokens_iff_runTokens (s : List Char) (t : Nat) :
    t ∈ yearTokens s ↔ t ∈ runTokens s := by
  rw [mem_yearTokens, ← runTokens_iff_pos]

theorem mem_sortedYears (s : List Char) (t : Nat) :
    t ∈ sortedYears s ↔ t ∈ runTokens s := by
  unfold sortedYears
  rw [List.Perm.mem_iff (List.perm_insertionSort _ _), List.mem_dedup]
  exact mem_yearTokens_iff_runTokens s t

theorem sortedYears_bounds (s : List Char) (t : Nat)
    (h : t ∈ sortedYears s) : 1900 ≤ t ∧ t ≤ 2099 := by
  rw [mem_sortedYears, ← mem_yearTokens_iff_runTokens, mem_yearTokens] at h
  obtain ⟨i, hi, rfl⟩ := h
  have := (isYearTok_iff s i).mp hi
  exact ⟨this.2.2.1, this.2.2.2.1⟩

/-- The `20\d{2}` part of the pattern against the text after the
whitespace; `ws` is only carried into the result. -/
def fyCore (ws : List Char) : List Char → Option (List Char × List Char × List Char)
  | a :: b :: c :: d :: tail =>
    if a = '2' ∧ b = '0' ∧ c.isDigit = true ∧ d.isDigit = true then
      some (ws, [a, b, c, d], tail)
    else none
  | [] => none
  | [_] => none
  | [_, _] => none
  | [_, _, _] => none

/-- One attempted match of the tail of the pattern `FY\s*20\d{2}` after
an initial `F`: given the text following the `F`, return the consumed
whitespace, the four matched digit characters and the remainder, or
`none` when the pattern does not match here.  `\s*` is greedy; since no
whitespace character is `2`, backtracking cannot recover a failed
match, so maximal munch is exact. -/
def fyMatchP : List Char → Option (List Char × List Char × List Char)
  | [] => none
  | y :: rest2 =>
    if y = 'Y' then
      fyCore (rest2.takeWhile pyIsSpace) (rest2.dropWhile pyIsSpace)
    else none

theorem fyCore_cons4 (ws : List Char) (a b c d : Char) (tail : List Char) :
    fyCore ws (a :: b :: c :: d :: tail) =
      if a = '2' ∧ b = '0' ∧ c.isDigit = true ∧ d.isDigit = true then
        some (ws, [a, b, c, d], tail)
      else none := rfl

theorem fyCore_not2 (ws : List Char) (a : Char) (L : List Char)
    (ha : ¬a = '2') : fyCore ws (a :: L) = none := by
  rcases L with _ | ⟨b, _ | ⟨c, _ | ⟨d, tl⟩⟩⟩
  · rfl
  · rfl
  · rfl
  · rw [fyCore_cons4, if_neg]
    rintro ⟨h2, -⟩
    exact ha h2

theorem fyCore_not0 (ws : List Char) (b : Char) (L : List Char)
    (hb : ¬b = '0') : fyCore ws ('2' :: b :: L) = none := by
  rcases L with _ | ⟨c, _ | ⟨d, tl⟩⟩
  · rfl
  · rfl
  · rw [fyCore_cons4, if_neg]
    rintro ⟨-, h2, -⟩
    exact hb h2

theorem fyCore_notdig_c (ws : List Char) (c : Char) (L : List Char)
    (hc : ¬c.isDigit = true) : fyCore ws ('2' :: '0' :: c :: L) = none := by
  rcases L with _ | ⟨d, tl⟩
  · rfl
  · rw [fyCore_cons4, if_neg]
    rintro ⟨-, -, h2, -⟩
    exact hc h2

theorem fyCore_notdig_d (ws : List Char) (c d : Char) (tl : List Char)
    (hd : ¬d.isDigit = true) :
    fyCore ws ('2' :: '0' :: c :: d :: tl) = none := by
  rw [fyCore_cons4, if_neg]
  rintro ⟨-, -, -, h2⟩
  exact hd h2

theorem fyCore_some (ws L ws2 ds tl : List Char)
    (h : fyCore ws L = some (ws2, ds, tl)) :
    ∃ c d, L = '2' :: '0' :: c :: d :: tl ∧ ws2 = ws ∧ ds = ['2', '0', c, d] ∧
      c.isDigit = true ∧ d.isDigit = true := by
  rcases L with _ | ⟨a, _ | ⟨b, _ | ⟨c, _ | ⟨d, tail⟩⟩⟩⟩
  · simp [fyCore] at h
  · simp [fyCore] at h
  · simp [fyCore] at h
  · simp [fyCore] at h
  · rw [fyCore_cons4] at h
    by_cases hcond : a = '2' ∧ b = '0' ∧ c.isDigit = true ∧ d.isDigit = true
    · rw [if_pos hcond] at h
      obtain ⟨ha, hb, hc, hd⟩ := hcond
      subst ha
      subst hb
      injection h with h'
      injection h' with h1 hrest
      injection hrest with hmid h3
      subst h1
      subst hmid
      subst h3
      exact ⟨c, d, rfl, rfl, rfl, hc, hd⟩
    · rw [if_neg hcond] at h
      simp at h

theorem fyMatchP_cons (y : Char) (rest2 : List Char) :
    fyMatchP (y :: rest2) =
      if y = 'Y' then
        fyCore (rest2.takeWhile pyIsSpace) (rest2.dropWhile pyIsSpace)
      else none := rfl

theorem fyMatchP_some (r ws ds tl : List Char)
    (h : fyMatchP r = some (ws, ds, tl)) :
    ∃ rest2 c d, r = 'Y' :: rest2 ∧
      rest2.dropWhile pyIsSpace = '2' :: '0' :: c :: d :: tl ∧
      ws = rest2.takeWhile pyIsSpace ∧ ds = ['2', '0', c, d] ∧
      c.isDigit = true ∧ d.isDigit = true := by
  cases r with
  | nil => simp [fyMatchP] at h
  | cons y rest2 =>
    rw [fyMatchP_cons] at h
    by_cases hy : y = 'Y'
    · rw [if_pos hy] at h
      subst hy
      obtain ⟨c, d, hL, hws, hds, hc, hd⟩ := fyCore_some _ _ _ _ _ h
      exact ⟨rest2, c, d, rfl, hL, hws, hds, hc, hd⟩
    · rw [if_neg hy] at h
      simp at h

theorem fyMatchP_length (r ws ds tl : List Char)
    (h : fyMatchP r = some (ws, ds, tl)) : tl.length + 5 ≤ r.length := by
  obtain ⟨rest2, c, d, rfl, hdw, -⟩ := fyMatchP_some r ws ds tl h
  have h1 := length_dropWhile_le pyIsSpace rest2
  rw [hdw] at h1
  simp only [List.length_cons] at h1 ⊢
  omega

/-- Fuelled recursion of
`re.sub(r"FY\s*20\d{2}", f"FY {to_year}", q)`: scan left to right; at
each `F` try the rest of the pattern; on a match emit `FY ` followed by
the replacement digits `v` and continue after the match, otherwise copy
one character. -/
def fySubFuel (v : List Char) : Nat → List Char → List Char
  | 0, s => s
  | _ + 1, [] => []
  | n + 1, c :: rest =>
    if c = 'F' then
      match fyMatchP rest with
      | some (_, _, tail) => 'F' :: 'Y' :: ' ' :: (v ++ fySubFuel v n tail)
      | none => c :: fySubFuel v n rest
    else c :: fySubFuel v n rest

/-- `re.sub(r"FY\s*20\d{2}", "FY " + v, s)` for a digit replacement
`v`. -/
def fySub (v s : List Char) : List Char := fySubFuel v s.length s

theorem fySubFuel_irrel (v : List Char) :
    ∀ n m s, s.length ≤ n → s.length ≤ m → fySubFuel v n s = fySubFuel v m s := by
  intro n
  induction n with
  | zero =>
    intro m s hn _
    have : s = [] := List.eq_nil_of_length_eq_zero (Nat.le_zero.mp hn)
    subst this
    cases m <;> rfl
  | succ n ih =>
    intro m s hn hm
    cases s with
    | nil => cases m <;> rfl
    | cons c rest =>
      cases m with
      | zero => simp at hm
      | succ m =>
        simp only [fySubFuel]
        by_cases hc : c = 'F'
        · rw [if_pos hc, if_pos hc]
          rcases hmp : fyMatchP rest with - | ⟨ws, ds, tail⟩
          · simp only [List.length_cons] at hn hm
            show c :: fySubFuel v n rest = c :: fySubFuel v m rest
            rw [ih m rest (by omega) (by omega)]
          · have := fyMatchP_length rest ws ds tail hmp
            simp only [List.length_cons] at hn hm
            show 'F' :: 'Y' :: ' ' :: (v ++ fySubFuel v n tail) =
              'F' :: 'Y' :: ' ' :: (v ++ fySubFuel v m tail)
            rw [ih m tail (by omega) (by omega)]
        · rw [if_neg hc, if_neg hc]
          simp only [List.length_cons] at hn hm
          rw [ih m rest (by omega) (by omega)]

theorem fySub_nil (v : List Char) : fySub v [] = [] := rfl

theorem fySub_cons_not_F (v : List Char) (c : Char) (rest : List Char)
    (hc : ¬c = 'F') : fySub v (c :: rest) = c :: fySub v rest := by
  show fySubFuel v (rest.length + 1) (c :: rest) = _
  simp only [fySubFuel]
  rw [if_neg hc]
  rfl

theorem fySub_cons_F_none (v : List Char) (rest : List Char)
    (h : fyMatchP rest = none) : fySub v ('F' :: rest) = 'F' :: fySub v rest := by
  show fySubFuel v (rest.length + 1) ('F' :: rest) = _
  simp only [fySubFuel, if_true]
  rw [h]
  rfl

theorem fySub_cons_F_some (v : List Char) (rest ws ds tail : List Char)
    (h : fyMatchP rest = some (ws, ds, tail)) :
    fySub v ('F' :: rest) = 'F' :: 'Y' :: ' ' :: (v ++ fySub v tail) := by
  show fySubFuel v (rest.length + 1) ('F' :: rest) = _
  simp only [fySubFuel, if_true]
  rw [h]
  show 'F' :: 'Y' :: ' ' :: (v ++ fySubFuel v rest.length tail) = _
  have hlen := fyMatchP_length rest ws ds tail h
  rw [fySubFuel_irrel v rest.length tail.length tail (by omega) (Nat.le_refl _)]
  rfl

theorem fySub_head (v : List Char) (c : Char) (rest : List Char) :
    ∃ T, fySub v (c :: rest) = c :: T := by
  by_cases hc : c = 'F'
  · subst hc
    rcases hmp : fyMatchP rest with - | ⟨⟨ws, ds, tail⟩⟩
    · exact ⟨fySub v rest, fySub_cons_F_none v rest hmp⟩
    · exact ⟨'Y' :: ' ' :: (v ++ fySub v tail), fySub_cons_F_some v rest ws ds tail hmp⟩
  · exact ⟨fySub v rest, fySub_cons_not_F v c rest hc⟩

theorem digit_ne_F (c : Char) (h : c.isDigit = true) : ¬c = 'F' := by
  rintro rfl
  exact absurd h (by decide)

theorem space_ne_F (c : Char) (h : pyIsSpace c = true) : ¬c = 'F' := by
  rintro rfl
  exact absurd h (by decide)

/-- Characters that are never `F` (digits, whitespace) are copied
through the scan. -/
theorem fySub_copy (v D Z : List Char) (hD : ∀ x ∈ D, ¬x = 'F') :
    fySub v (D ++ Z) = D ++ fySub v Z := by
  induction D with
  | nil => rfl
  | cons a D' ih =>
    rw [List.cons_append, fySub_cons_not_F v a _ (hD a (by simp)),
      ih (fun x hx => hD x (by simp [hx]))]
    rfl

/-- If `20\d{2}` does not match at the head of `rem`, it still does not
match there after the scan rewrote `rem`. -/
theorem fyCore_none_fySub (v WS WS' : List Char) :
    ∀ rem, fyCore WS' rem = none → fyCore WS (fySub v rem) = none := by
  intro rem h
  cases rem with
  | nil => rfl
  | cons e r3 =>
    by_cases he : e = '2'
    · subst he
      rw [fySub_cons_not_F v '2' r3 (by decide)]
      cases r3 with
      | nil => rfl
      | cons f r4 =>
        by_cases hf : f = '0'
        · subst hf
          rw [fySub_cons_not_F v '0' r4 (by decide)]
          cases r4 with
          | nil => rfl
          | cons g r5 =>
            by_cases hg : g.isDigit = true
            · rw [fySub_cons_not_F v g r5 (digit_ne_F g hg)]
              cases r5 with
              | nil => rfl
              | cons hh r6 =>
                by_cases hhh : hh.isDigit = true
                · exfalso
                  rw [fyCore_cons4, if_pos ⟨rfl, rfl, hg, hhh⟩] at h
                  simp at h
                · obtain ⟨T, hT⟩ := fySub_head v hh r6
                  rw [hT]
                  exact fyCore_notdig_d WS g hh T hhh
            · obtain ⟨T, hT⟩ := fySub_head v g r5
              rw [hT]
              exact fyCore_notdig_c WS g T hg
        · obtain ⟨T, hT⟩ := fySub_head v f r4
          rw [hT]
          exact fyCore_not0 WS f T hf
    · obtain ⟨T, hT⟩ := fySub_head v e r3
      rw [hT]
      exact fyCore_not2 WS e T he

/-- A failed `FY\s*20\d{2}` match stays failed after the scan rewrote
the text behind the `F`. -/
theorem fyMatchP_none_preserved (v rest : List Char)
    (h : fyMatchP rest = none) : fyMatchP (fySub v rest) = none := by
  cases rest with
  | nil => rfl
  | cons y r2 =>
    by_cases hy : y = 'Y'
    · subst hy
      rw [fySub_cons_not_F v 'Y' r2 (by decide), fyMatchP_cons, if_pos rfl]
      rw [fyMatchP_cons, if_pos rfl] at h
      have hws : ∀ x ∈ r2.takeWhile pyIsSpace, pyIsSpace x = true :=
        fun x hx => List.mem_takeWhile_imp hx
      have hcopy : fySub v r2 =
          r2.takeWhile pyIsSpace ++ fySub v (r2.dropWhile pyIsSpace) := by
        conv_lhs => rw [← List.takeWhile_append_dropWhile pyIsSpace r2]
        exact fySub_copy v _ _ (fun x hx => space_ne_F x (hws x hx))
      rw [hcopy, dropWhile_append_all pyIsSpace _ _ hws]
      rcases hrem : r2.dropWhile pyIsSpace with _ | ⟨e, r3⟩
      · rw [fySub_nil]
        rfl
      · rw [hrem] at h
        have he : pyIsSpace e = false := dropWhile_head_not pyIsSpace r2 r3 e hrem
        obtain ⟨T, hT⟩ := fySub_head v e r3
        rw [hT, List.dropWhile_cons, if_neg (by simp [he]), ← hT]
        exact fyCore_none_fySub v _ _ (e :: r3) h
    · obtain ⟨T, hT⟩ := fySub_head v y r2
      rw [hT, fyMatchP_cons, if_neg hy]

theorem runTokens_nondigit_append (W Z : List Char)
    (hW : ∀ w ∈ W, w.isDigit = false) : runTokens (W ++ Z) = runTokens Z := by
  induction W with
  | nil => simp
  | cons w W' ih =>
    rw [List.cons_append, runTokens_cons_nondigit w _ (hW w (by simp)),
      ih (fun x hx => hW x (by simp [hx]))]

theorem fySub_head_nondigit (v Z : List Char)
    (hZ : (Z.getD 0 ' ').isDigit = false) :
    ((fySub v Z).getD 0 ' ').isDigit = false := by
  cases Z with
  | nil => rw [fySub_nil]; exact hZ
  | cons x X2 =>
    obtain ⟨T, hT⟩ := fySub_head v x X2
    rw [hT, List.getD_cons_zero]
    rw [List.getD_cons_zero] at hZ
    exact hZ

theorem runTokens_digit_prepend (D X : List Char) (hD : D ≠ [])
    (hall : ∀ a ∈ D, a.isDigit = true)
    (hX : (X.getD 0 ' ').isDigit = false) :
    runTokens (D ++ X) = runTok D ++ runTokens X := by
  have htw : X.takeWhile Char.isDigit = [] := by
    cases X with
    | nil => rfl
    | cons x X2 =>
      rw [List.getD_cons_zero] at hX
      rw [List.takeWhile_cons, if_neg (by simp [hX])]
  have hdw : X.dropWhile Char.isDigit = X := by
    cases X with
    | nil => rfl
    | cons x X2 =>
      rw [List.getD_cons_zero] at hX
      rw [List.dropWhile_cons, if_neg (by simp [hX])]
  unfold runTokens
  rw [digitRuns_digit_append D X hD hall, htw, hdw, List.append_nil]
  simp

theorem runTok_long (r : List Char) (h : r.length ≠ 4) : runTok r = [] := by
  unfold runTok
  cases hs : shape4 r with
  | false => rw [if_neg (by simp)]
  | true => exact absurd (shape4_length r hs) h

/-- The `re.sub(r"FY\s*20\d{2}", ...)` pass: every surviving `YEAR_RE`
value is the new year or an old value of the string. -/
theorem fySub_runTokens (Y : Nat) (hY2 : Y ≤ 9999) (s0 : List Char) :
    ∀ t ∈ runTokens (fySub (toChars4 Y) s0), t = Y ∨ t ∈ runTokens s0 := by
  have H : ∀ n (s : List Char), s.length = n →
      ∀ t ∈ runTokens (fySub (toChars4 Y) s), t = Y ∨ t ∈ runTokens s := by
    intro n
    induction n using Nat.strong_induction_on with
    | _ n IH =>
      intro s hs t ht
      cases s with
      | nil =>
        rw [fySub_nil, runTokens_nil] at ht
        simp at ht
      | cons c rest =>
        by_cases hcF : c = 'F'
        · subst hcF
          rcases hmp : fyMatchP rest with - | ⟨⟨ws, ds, tail⟩⟩
          · rw [fySub_cons_F_none _ rest hmp,
              runTokens_cons_nondigit 'F' _ (by decide)] at ht
            rw [runTokens_cons_nondigit 'F' rest (by decide)]
            exact IH rest.length (by simp only [List.length_cons] at hs; omega)
              rest rfl t ht
          · obtain ⟨rest2, cc, dd, rfl, hdw, -, -, hccd, hddd⟩ :=
              fyMatchP_some rest ws ds tail hmp
            rw [fySub_cons_F_some _ _ ws ds tail hmp,
              runTokens_cons_nondigit 'F' _ (by decide),
              runTokens_cons_nondigit 'Y' _ (by decide),
              runTokens_cons_nondigit ' ' _ (by decide)] at ht
            have htdig : ∀ a ∈ tail.takeWhile Char.isDigit, a.isDigit = true :=
              fun a ha => List.mem_takeWhile_imp ha
            have hfscopy : fySub (toChars4 Y) tail =
                tail.takeWhile Char.isDigit ++
                  fySub (toChars4 Y) (tail.dropWhile Char.isDigit) := by
              conv_lhs => rw [← List.takeWhile_append_dropWhile Char.isDigit tail]
              exact fySub_copy _ _ _ (fun x hx => digit_ne_F x (htdig x hx))
            rw [hfscopy, ← List.append_assoc] at ht
            have hfh : (((fySub (toChars4 Y)
                (tail.dropWhile Char.isDigit)).getD 0 ' ').isDigit) = false :=
              fySub_head_nondigit _ _ (dropWhile_digit_head tail)
            have hvtd : ∀ a ∈ toChars4 Y ++ tail.takeWhile Char.isDigit,
                a.isDigit = true := by
              intro a ha
              rcases List.mem_append.mp ha with h | h
              · exact toChars4_all_digit Y a h
              · exact htdig a h
            have hvne : toChars4 Y ++ tail.takeWhile Char.isDigit ≠ [] := by
              simp [toChars4]
            rw [runTokens_digit_prepend _ _ hvne hvtd hfh] at ht
            have hlen2 : tail.length + 4 ≤ rest2.length := by
              have := length_dropWhile_le pyIsSpace rest2
              rw [hdw] at this
              simp only [List.length_cons] at this
              omega
            rcases List.mem_append.mp ht with hm | hm
            · cases htd : tail.takeWhile Char.isDigit with
              | nil =>
                rw [htd, List.append_nil] at hm
                left
                obtain ⟨-, htv⟩ := (mem_runTok t _).mp hm
                rw [htv, val4_toChars4 Y hY2]
              | cons td tds =>
                exfalso
                rw [htd, runTok_long _ (by
                  simp only [List.length_append, toChars4_length, List.length_cons]
                  omega)] at hm
                simp at hm
            · have htrl : (tail.dropWhile Char.isDigit).length < n := by
                have h1 := length_dropWhile_le Char.isDigit tail
                simp only [List.length_cons] at hs
                omega
              rcases IH _ htrl _ rfl t hm with h | h
              · exact Or.inl h
              · right
                rw [runTokens_cons_nondigit 'F' _ (by decide),
                  runTokens_cons_nondigit 'Y' _ (by decide)]
                have hwsr : ∀ x ∈ rest2.takeWhile pyIsSpace, x.isDigit = false :=
                  fun x hx => pyIsSpace_nondigit x (List.mem_takeWhile_imp hx)
                have hr2 : rest2 = rest2.takeWhile pyIsSpace ++
                    ('2' :: '0' :: cc :: dd :: tail) := by
                  conv_lhs => rw [← List.takeWhile_append_dropWhile pyIsSpace rest2]
                  rw [hdw]
                rw [hr2, runTokens_nondigit_append _ _ hwsr]
                have hbig : '2' :: '0' :: cc :: dd :: tail =
                    ('2' :: '0' :: cc :: dd :: tail.takeWhile Char.isDigit) ++
                      tail.dropWhile Char.isDigit := by
                  simp [List.takeWhile_append_dropWhile]
                rw [hbig, runTokens_digit_prepend _ _ (by simp) (by
                  intro a ha
                  simp only [List.mem_cons] at ha
                  rcases ha with rfl | rfl | rfl | rfl | ha
                  · decide
                  · decide
                  · exact hccd
                  · exact hddd
                  · exact htdig a ha) (dropWhile_digit_head tail)]
                exact List.mem_append.mpr (Or.inr h)
        · rw [fySub_cons_not_F _ c rest hcF] at ht
          by_cases hcd : c.isDigit = true
          · have hrdig : ∀ a ∈ rest.takeWhile Char.isDigit, a.isDigit = true :=
              fun a ha => List.mem_takeWhile_imp ha
            have hrcopy : fySub (toChars4 Y) rest =
                rest.takeWhile Char.isDigit ++
                  fySub (toChars4 Y) (rest.dropWhile Char.isDigit) := by
              conv_lhs => rw [← List.takeWhile_append_dropWhile Char.isDigit rest]
              exact fySub_copy _ _ _ (fun x hx => digit_ne_F x (hrdig x hx))
            rw [hrcopy, ← List.cons_append] at ht
            have hallcr : ∀ a ∈ c :: rest.takeWhile Char.isDigit, a.isDigit = true := by
              intro a ha
              rcases List.mem_cons.mp ha with rfl | h
              · exact hcd
              · exact hrdig a h
            rw [runTokens_digit_prepend _ _ (by simp) hallcr
              (fySub_head_nondigit _ _ (dropWhile_digit_head rest))] at ht
            have hs2 : c :: rest =
                (c :: rest.takeWhile Char.isDigit) ++ rest.dropWhile Char.isDigit := by
              rw [List.cons_append, List.takeWhile_append_dropWhile]
            rw [hs2, runTokens_digit_prepend _ _ (by simp) hallcr
              (dropWhile_digit_head rest)]
            have hrl : (rest.dropWhile Char.isDigit).length < n := by
              have h1 := length_dropWhile_le Char.isDigit rest
              simp only [List.length_cons] at hs
              omega
            rcases List.mem_append.mp ht with hm | hm
            · exact Or.inr (List.mem_append.mpr (Or.inl hm))
            · rcases IH _ hrl _ rfl t hm with h | h
              · exact Or.inl h
              · exact Or.inr (List.mem_append.mpr (Or.inr h))
          · have hcd' : c.isDigit = false := by simpa using hcd
            rw [runTokens_cons_nondigit c _ hcd'] at ht
            rw [runTokens_cons_nondigit c rest hcd']
            exact IH rest.length (by simp only [List.length_cons] at hs; omega)
              rest rfl t ht
  exact H s0.length s0 rfl

theorem drop_append_add (A X : List Char) (m : Nat) :
    (A ++ X).drop (A.length + m) = X.drop m := by
  rw [← List.drop_drop m A.length (A ++ X), List.drop_left]

theorem digit_not_space (a : Char) (h : a.isDigit = true) : pyIsSpace a = false := by
  cases hpa : pyIsSpace a with
  | false => rfl
  | true => exact absurd h (by simp [pyIsSpace_nondigit a hpa])

/-- After the `re.sub` pass with replacement digits `toChars4 Y`, every
position where the pattern `FY\s*20\d{2}` matches reads exactly
`FY ` followed by `toChars4 Y`. -/
theorem fySub_phrases (Y : Nat) (s0 : List Char) :
    ∀ i ws ds tl, (fySub (toChars4 Y) s0).getD i ' ' = 'F' →
      fyMatchP ((fySub (toChars4 Y) s0).drop (i + 1)) = some (ws, ds, tl) →
      ws = [' '] ∧ ds = toChars4 Y := by
  have H : ∀ n (s : List Char), s.length = n →
      ∀ i ws ds tl, (fySub (toChars4 Y) s).getD i ' ' = 'F' →
        fyMatchP ((fySub (toChars4 Y) s).drop (i + 1)) = some (ws, ds, tl) →
        ws = [' '] ∧ ds = toChars4 Y := by
    intro n
    induction n using Nat.strong_induction_on with
    | _ n IH =>
      intro s hs i ws ds tl hF hm
      cases s with
      | nil =>
        rw [fySub_nil] at hF
        exact absurd hF (by simp)
      | cons c rest =>
        by_cases hcF : c = 'F'
        · subst hcF
          rcases hmp : fyMatchP rest with - | ⟨⟨ws0, ds0, tail⟩⟩
          · rw [fySub_cons_F_none _ rest hmp] at hF hm
            rcases Nat.eq_zero_or_pos i with rfl | hipos
            · rw [List.drop_succ_cons, List.drop_zero,
                fyMatchP_none_preserved _ rest hmp] at hm
              cases hm
            · obtain ⟨j, rfl⟩ : ∃ j, i = j + 1 := ⟨i - 1, by omega⟩
              rw [List.getD_cons_succ] at hF
              rw [List.drop_succ_cons] at hm
              exact IH rest.length (by simp only [List.length_cons] at hs; omega)
                rest rfl j ws ds tl hF hm
          · obtain ⟨a, b, c', d, hv⟩ : ∃ a b c' d, toChars4 Y = [a, b, c', d] := by
              rcases hvv : toChars4 Y with - | ⟨a, - | ⟨b, - | ⟨c', - | ⟨d, - | ⟨e, r⟩⟩⟩⟩⟩ <;>
                first
                  | (exact ⟨a, b, c', d, rfl⟩)
                  | (exact absurd (toChars4_length Y) (by rw [hvv]; simp))
            have hda : a.isDigit = true := toChars4_all_digit Y a (by rw [hv]; simp)
            have hdb : b.isDigit = true := toChars4_all_digit Y b (by rw [hv]; simp)
            have hdc : c'.isDigit = true := toChars4_all_digit Y c' (by rw [hv]; simp)
            have hdd : d.isDigit = true := toChars4_all_digit Y d (by rw [hv]; simp)
            have hlt : tail.length < n := by
              have := fyMatchP_length rest ws0 ds0 tail hmp
              simp only [List.length_cons] at hs
              omega
            rw [fySub_cons_F_some _ rest ws0 ds0 tail hmp, hv] at hF hm
            simp only [List.cons_append, List.nil_append] at hF hm
            by_cases hi : i < 7
            · interval_cases i
              · rw [List.drop_succ_cons, List.drop_zero, fyMatchP_cons,
                  if_pos rfl, List.takeWhile_cons, if_pos (by decide),
                  List.takeWhile_cons, if_neg (by simp [digit_not_space a hda]),
                  List.dropWhile_cons, if_pos (by decide),
                  List.dropWhile_cons, if_neg (by simp [digit_not_space a hda]),
                  fyCore_cons4] at hm
                split at hm
                · simp only [Option.some.injEq, Prod.mk.injEq] at hm
                  obtain ⟨hws, hds, -⟩ := hm
                  exact ⟨hws.symm, by rw [← hds, hv]⟩
                · cases hm
              · exact absurd (show ('Y' : Char) = 'F' from hF) (by decide)
              · exact absurd (show (' ' : Char) = 'F' from hF) (by decide)
              · exact absurd (show a = 'F' from hF) (digit_ne_F a hda)
              · exact absurd (show b = 'F' from hF) (digit_ne_F b hdb)
              · exact absurd (show c' = 'F' from hF) (digit_ne_F c' hdc)
              · exact absurd (show d = 'F' from hF) (digit_ne_F d hdd)
            · obtain ⟨j, rfl⟩ : ∃ j, i = 7 + j := ⟨i - 7, by omega⟩
              have hF' : ((['F', 'Y', ' ', a, b, c', d] : List Char) ++
                  fySub [a, b, c', d] tail).getD
                  ((['F', 'Y', ' ', a, b, c', d] : List Char).length + j) ' ' = 'F' := hF
              have hm' : fyMatchP (((['F', 'Y', ' ', a, b, c', d] : List Char) ++
                  fySub [a, b, c', d] tail).drop
                  ((['F', 'Y', ' ', a, b, c', d] : List Char).length + (j + 1))) =
                  some (ws, ds, tl) := hm
              rw [getD_append_right_add] at hF'
              rw [drop_append_add] at hm'
              rw [← hv] at hF' hm'
              exact IH tail.length hlt tail rfl j ws ds tl hF' hm'
        · rw [fySub_cons_not_F _ c rest hcF] at hF hm
          rcases Nat.eq_zero_or_pos i with rfl | hipos
          · rw [List.getD_cons_zero] at hF
            exact absurd hF hcF
          · obtain ⟨j, rfl⟩ : ∃ j, i = j + 1 := ⟨i - 1, by omega⟩
            rw [List.getD_cons_succ] at hF
            rw [List.drop_succ_cons] at hm
            exact IH rest.length (by simp only [List.length_cons] at hs; omega)
              rest rfl j ws ds tl hF hm
  exact H s0.length s0 rfl

/-- The line list of `bump_years` (app.py line 599):
`[l.strip() for l in text.splitlines() if l.strip()]`. -/
def bumpLines (text : List Char) : List (List Char) :=
  ((splitLines text).map pyStrip).filter (fun l => decide (l ≠ []))

/-- The per-line body of the `for l in lines:` loop (app.py lines
600-606): sequentially `q = q.replace(str(y), str(to_year))` for each
detected year, then `q = re.sub(r"FY\s*20\d{2}", f"FY {to_year}", q)`.
`str(·)` is `toChars4` since every value involved has four digits. -/
def bumpLine (years : List Nat) (toY : Nat) (l : List Char) : List Char :=
  fySub (toChars4 toY)
    (years.foldl (fun q y => pyReplace q (toChars4 y) (toChars4 toY)) l)

/-- `bump_years(text, to_year)` (app.py lines 594-607). -/
def bump_years (text : List Char) (toY : Nat) : List (List Char) :=
  if text = [] then []
  else (bumpLines text).map (bumpLine (sortedYears text) toY)

theorem foldl_pyReplace_aux (Y : Nat) (L : List Nat) (l : List Char) :
    L.foldl (fun q y => pyReplace q (toChars4 y) (toChars4 Y)) l =
      L.foldl (fun q y => pyReplaceAux (toChars4 y) (toChars4 Y) q) l := by
  induction L generalizing l with
  | nil => rfl
  | cons y L' ih =>
    simp only [List.foldl_cons]
    rw [show pyReplace l (toChars4 y) (toChars4 Y) =
        pyReplaceAux (toChars4 y) (toChars4 Y) l from by
      unfold pyReplace; rw [if_neg (toChars4_ne_nil y)], ih]

theorem bumpLine_tokens (text : List Char) (toY : Nat) (hY2 : toY ≤ 9999)
    (l : List Char) (hl : l ∈ bumpLines text) :
    ∀ t ∈ runTokens (bumpLine (sortedYears text) toY l), t = toY := by
  intro t ht
  unfold bumpLine at ht
  rw [foldl_pyReplace_aux] at ht
  rcases fySub_runTokens toY hY2 _ t ht with h | h
  · exact h
  · have hb : ∀ y ∈ sortedYears text, 1000 ≤ y ∧ y ≤ 9999 := by
      intro y hy
      have := sortedYears_bounds text y hy
      omega
    rcases fold_runTokens toY hY2 (sortedYears text) hb l t h with h2 | ⟨h3, h4⟩
    · exact h2
    · exfalso
      apply h4
      rw [mem_sortedYears]
      unfold bumpLines at hl
      obtain ⟨hl2, -⟩ := List.mem_filter.mp hl
      obtain ⟨l0, hl0, rfl⟩ := List.mem_map.mp hl2
      rw [runTokens_pyStrip] at h3
      exact runTokens_splitLines_sub text l0 hl0 t h3

theorem pyReplaceAux_not_substr (k v l : List Char)
    (h : isSubstr k l = false) : pyReplaceAux k v l = l := by
  induction l with
  | nil => exact pyReplaceAux_nil k v
  | cons c s ih =>
    have h' : (k.isPrefixOf (c :: s) || isSubstr k s) = false := h
    simp only [Bool.or_eq_false_iff] at h'
    rw [pyReplaceAux_cons, if_neg (by
      rintro ⟨-, hp⟩
      exact absurd hp (by simp [h'.1])), ih h'.2]

theorem fySub_no_match (v l : List Char)
    (h : ∀ i, i < l.length → l.getD i ' ' = 'F' →
      fyMatchP (l.drop (i + 1)) = none) :
    fySub v l = l := by
  induction l with
  | nil => exact fySub_nil v
  | cons c rest ih =>
    have hrest : ∀ i, i < rest.length → rest.getD i ' ' = 'F' →
        fyMatchP (rest.drop (i + 1)) = none := by
      intro i hi hF
      have := h (i + 1) (by simp only [List.length_cons]; omega)
        (by rw [List.getD_cons_succ]; exact hF)
      rw [List.drop_succ_cons] at this
      exact this
    by_cases hc : c = 'F'
    · subst hc
      have h0 := h 0 (by simp) (by rw [List.getD_cons_zero])
      rw [List.drop_succ_cons, List.drop_zero] at h0
      rw [fySub_cons_F_none v rest h0, ih hrest]
    · rw [fySub_cons_not_F v c rest hc, ih hrest]

theorem foldl_replace_id (Y : Nat) (L : List Nat) (l : List Char)
    (h : ∀ y ∈ L, isSubstr (toChars4 y) l = false) :
    L.foldl (fun q y => pyReplace q (toChars4 y) (toChars4 Y)) l = l := by
  induction L with
  | nil => rfl
  | cons y L' ih =>
    simp only [List.foldl_cons]
    rw [show pyReplace l (toChars4 y) (toChars4 Y) = l from by
      unfold pyReplace
      rw [if_neg (toChars4_ne_nil y)]
      exact pyReplaceAux_not_substr _ _ _ (h y (by simp)), ih]
    intro z hz
    exact h z (by simp [hz])

theorem bumpLines_nil : bumpLines [] = [] := rfl

/-- C3: under the UI bounds on the target year, every line returned by
`bump_years` carries no fiscal-year token other than the target year
(positionally, every `YEAR_RE` match has value `toY`), and every
position where `FY\s*20\d{2}` matches reads exactly `FY ` followed by
the target year's digits. -/
theorem claim_C3 (text : List Char) (toY : Nat)
    (h1 : 1990 ≤ toY) (h2 : toY ≤ 2100) :
    ∀ l' ∈ bump_years text toY,
      (∀ i, i < l'.length → isYearTok l' i = true → valAt l' i = toY) ∧
      (∀ i ws ds tl, l'.getD i ' ' = 'F' →
        fyMatchP (l'.drop (i + 1)) = some (ws, ds, tl) →
        ws = [' '] ∧ ds = toChars4 toY) := by
  intro l' hl'
  unfold bump_years at hl'
  split at hl'
  · simp at hl'
  · obtain ⟨l, hl, rfl⟩ := List.mem_map.mp hl'
    constructor
    · intro i _hlt hi
      exact bumpLine_tokens text toY (by omega) l hl _
        ((runTokens_iff_pos _ _).mpr ⟨i, hi, rfl⟩)
    · intro i ws ds tl hF hm
      exact fySub_phrases toY _ i ws ds tl hF hm

theorem claim_C3_witness :
    (1990 ≤ 2024 ∧ 2024 ≤ 2100) ∧
      ∀ l' ∈ bump_years ['F', 'Y', ' ', '2', '0', '2', '3'] 2024,
        (∀ i, i < l'.length → isYearTok l' i = true → valAt l' i = 2024) ∧
        (∀ i ws ds tl, l'.getD i ' ' = 'F' →
          fyMatchP (l'.drop (i + 1)) = some (ws, ds, tl) →
          ws = [' '] ∧ ds = toChars4 2024) :=
  ⟨⟨by decide, by decide⟩,
    claim_C3 ['F', 'Y', ' ', '2', '0', '2', '3'] 2024 (by decide) (by decide)⟩

/-- C4 as stated is false: the per-year pass is a plain substring
replacement, so the digits of a year detected elsewhere in the text are
rewritten even inside a longer number that is itself no token.  With
text `"2019\n120195"` the year 2019 is detected (first line), the
second line `120195` contains no token position at all, yet it comes
back as `120245`. -/
theorem claim_C4_counterexample :
    bump_years ['2', '0', '1', '9', '\n', '1', '2', '0', '1', '9', '5'] 2024 =
      [['2', '0', '2', '4'], ['1', '2', '0', '2', '4', '5']] ∧
    (∀ i, i < 6 → isYearTok ['1', '2', '0', '1', '9', '5'] i = false) ∧
    ['1', '2', '0', '1', '9', '5'] ∈
      bumpLines ['2', '0', '1', '9', '\n', '1', '2', '0', '1', '9', '5'] ∧
    bumpLine (sortedYears ['2', '0', '1', '9', '\n', '1', '2', '0', '1', '9', '5'])
        2024 ['1', '2', '0', '1', '9', '5'] ≠ ['1', '2', '0', '1', '9', '5'] := by
  decide

/-- C4 (amended): `bump_years` rewrites plain substring occurrences of
the detected years, not only token occurrences; what does hold is that
a line in which no detected year occurs as a substring and in which the
`FY\s*20\d{2}` pattern matches nowhere is returned verbatim (and so
appears unchanged in the output). -/
theorem claim_C4 (text : List Char) (toY : Nat) (l : List Char)
    (hl : l ∈ bumpLines text)
    (hsub : ∀ y ∈ sortedYears text, isSubstr (toChars4 y) l = false)
    (hfy : ∀ i, i < l.length → l.getD i ' ' = 'F' →
      fyMatchP (l.drop (i + 1)) = none) :
    bumpLine (sortedYears text) toY l = l ∧ l ∈ bump_years text toY := by
  have hid : bumpLine (sortedYears text) toY l = l := by
    unfold bumpLine
    rw [foldl_replace_id toY (sortedYears text) l hsub]
    exact fySub_no_match _ l hfy
  refine ⟨hid, ?_⟩
  have htext : text ≠ [] := by
    rintro rfl
    rw [bumpLines_nil] at hl
    simp at hl
  unfold bump_years
  rw [if_neg htext]
  exact List.mem_map.mpr ⟨l, hl, hid⟩

theorem claim_C4_witness :
    (['a', 'b', 'c'] ∈ bumpLines ['a', 'b', 'c', '\n', '2', '0', '1', '9'] ∧
     (∀ y ∈ sortedYears ['a', 'b', 'c', '\n', '2', '0', '1', '9'],
       isSubstr (toChars4 y) ['a', 'b', 'c'] = false) ∧
     (∀ i, i < (['a', 'b', 'c'] : List Char).length →
       (['a', 'b', 'c'] : List Char).getD i ' ' = 'F' →
       fyMatchP ((['a', 'b', 'c'] : List Char).drop (i + 1)) = none)) ∧
    (bumpLine (sortedYears ['a', 'b', 'c', '\n', '2', '0', '1', '9']) 2024
        ['a', 'b', 'c'] = ['a', 'b', 'c'] ∧
     ['a', 'b', 'c'] ∈ bump_years ['a', 'b', 'c', '\n', '2', '0', '1', '9'] 2024) := by
  have h3 : ∀ i, i < (['a', 'b', 'c'] : List Char).length →
      (['a', 'b', 'c'] : List Char).getD i ' ' = 'F' →
      fyMatchP ((['a', 'b', 'c'] : List Char).drop (i + 1)) = none := by
    intro i hi hF
    have hi' : i < 3 := hi
    interval_cases i
    · exact absurd (show 'a' = 'F' from hF) (by decide)
    · exact absurd (show 'b' = 'F' from hF) (by decide)
    · exact absurd (show 'c' = 'F' from hF) (by decide)
  exact ⟨⟨by decide, by decide, h3⟩,
    claim_C4 ['a', 'b', 'c', '\n', '2', '0', '1', '9'] 2024 ['a', 'b', 'c']
      (by decide) (by decide) h3⟩

/-- C5: the fiscal-year detector `YEAR_RE` matches at a position exactly
when the four characters there are digits forming a value in 1900..2099
and the window is neither immediately preceded nor immediately followed
by another digit; longer digit runs and four-digit numbers outside the
range are not matched. -/
theorem claim_C5 (s : List Char) (i : Nat) :
    isYearTok s i = true ↔
      (i + 4 ≤ s.length ∧
       (∀ j, j < 4 → (s.getD (i + j) ' ').isDigit = true) ∧
       1900 ≤ valAt s i ∧ valAt s i ≤ 2099 ∧
       (i = 0 ∨ (s.getD (i - 1) ' ').isDigit = false) ∧
       (i + 4 = s.length ∨ (s.getD (i + 4) ' ').isDigit = false)) :=
  isYearTok_iff s i

end TPA
